import Mathlib

/-!
Shallow embedding of the escape-time compute engine of the mandelbrot-rust
repository (src/mandelbrot/bounded.rs and src/mandelbrot/compute.rs), with
theorems settling the frozen claims about it.

Modelling conventions used throughout this development:

* Machine floating-point values (f32, f64, SIMD lanes, rug Floats) are
  modelled as exact rationals.  The explicit f64-to-f32 conversion performed
  by the f32x8 backend is kept as an abstract function argument (toF32), and
  the roundings performed by the rug arbitrary-precision operations are kept
  as an abstract bundle of rounding functions (HPRound); the theorems
  quantify over these, so they hold for every concrete rounding behaviour.
* Machine integers (u32, u64) are modelled as Nat.
* The mpsc channels are modelled functionally.  The optional progress sender
  is an `Option Bool`: `none` is "no observer", `some true` is an observer
  whose receiver is connected (a send succeeds and appends to the event
  list), `some false` is an observer whose receiver has disconnected (the
  send returns Err and the source's `.unwrap()` panics; the panic is
  modelled by the whole computation returning `none`).  The parallel
  row-result channel delivers the `(row_index, row_buffer)` pairs in an
  arbitrary completion order, which is passed in as an explicit list of row
  indices (the thread pool argument is modelled as that list).
* Rust slice indexing out of range (a panic) is modelled by `Option.none`.
-/

/-- Rust enum `Bound` (bounded.rs): per-pixel result of the escape-time
iteration, `Bounded` or `Unbounded(n)` with the escape iteration count. -/
inductive Bound where
  | Bounded : Bound
  | Unbounded : Nat → Bound
deriving DecidableEq

/-- Rust struct `BoundsSettings` (bounded.rs): iteration limit and
precision-in-bits. -/
structure BoundsSettings where
  limit : Nat
  precision : Nat
deriving DecidableEq

/-- Embedding of the trait `BoundsChecker` (bounded.rs): a backend exposes
`check_bounded` (returning the written-out batch of Bounds functionally)
and `mask` (whose length is the batch width). -/
structure Backend where
  check_bounded : List ℚ → List ℚ → BoundsSettings → List Bound
  mask : List Nat

/-- One update step of the orbit, from `impl_boundscheck_primitive`
(bounded.rs line 37): `z = (z.0*z.0 - z.1*z.1 + c.0, 2.0*z.0*z.1 + c.1)`. -/
def zNext (c z : ℚ × ℚ) : ℚ × ℚ :=
  (z.1 * z.1 - z.2 * z.2 + c.1, 2 * z.1 * z.2 + c.2)

/-- Squared magnitude `z.0*z.0 + z.1*z.1` used for the escape test. -/
def zNormSq (z : ℚ × ℚ) : ℚ :=
  z.1 * z.1 + z.2 * z.2

/-- The scalar `while iter < settings.limit` loop of
`impl_boundscheck_primitive` (bounded.rs lines 36-45).  The fuel argument is
`limit - iter`, so fuel 0 is the loop exit with result `Bounded`. -/
def primGo (c : ℚ × ℚ) : Nat → ℚ × ℚ → Nat → Bound
  | 0, _, _ => Bound.Bounded
  | fuel + 1, z, iter =>
    let z' := zNext c z
    if zNormSq z' < 4 then primGo c fuel z' (iter + 1) else Bound.Unbounded iter

/-- Body of `check_bounded` generated by `impl_boundscheck_primitive`
(bounded.rs lines 30-46).  Note that the macro never uses its `$type`
parameter: the inputs are read directly from the `&[f64]` slices
(`let x = x[0]`) and every arithmetic operation is performed on those f64
values, for the `f32` instantiation exactly as for the `f64` one. -/
def checkBoundedPrim (x y : List ℚ) (s : BoundsSettings) : List Bound :=
  [primGo (x.headI, y.headI) s.limit (0, 0) 0]

/-- The `impl BoundsChecker<f64> for f64` instance (bounded.rs line 55);
`mask()` is `vec![0]`. -/
def f64Backend : Backend :=
  { check_bounded := checkBoundedPrim, mask := [0] }

/-- The `impl BoundsChecker<f64> for f32` instance (bounded.rs line 56),
generated by the same macro with the same body: the `$type` parameter is
unused, so the arithmetic is the same f64 arithmetic as in `f64Backend`. -/
def f32Backend : Backend :=
  { check_bounded := checkBoundedPrim, mask := [0] }

/-- The lane-lockstep SIMD loop `for _ in 0..settings.limit` shared by the
f32x8 and f64x4 impls (bounded.rs lines 101-111 and 149-159), over `n`
lanes.  Each iteration updates every lane of z, computes the per-lane mask
`|z|^2 < 4`, breaks when the mask is all-false (`mask.none()`), and
otherwise advances the per-lane counter with
`iter = mask.select(iter + 1, iter)`. -/
def simdGo (n : Nat) (c : (Fin n → ℚ) × (Fin n → ℚ)) :
    Nat → (Fin n → ℚ) × (Fin n → ℚ) → (Fin n → Nat) → Fin n → Nat
  | 0, _, iter => iter
  | fuel + 1, z, iter =>
    let z' : (Fin n → ℚ) × (Fin n → ℚ) :=
      (fun i => z.1 i * z.1 i - z.2 i * z.2 i + c.1 i,
       fun i => 2 * z.1 i * z.2 i + c.2 i)
    let mask : Fin n → Bool := fun i => decide (z'.1 i * z'.1 i + z'.2 i * z'.2 i < 4)
    if ∀ i, mask i = false then iter
    else simdGo n c fuel z' fun i => if mask i then iter i + 1 else iter i

/-- The `impl BoundsChecker<f64> for f64x4` `check_bounded` (bounded.rs
lines 132-172).  Lanes beyond the input length read the zero-initialised
staging array `t = [0f64; 4]`.  After the loop, a lane whose counter is
below the limit is `Unbounded(count)`, otherwise `Bounded`. -/
def checkBoundedF64x4 (x y : List ℚ) (s : BoundsSettings) : List Bound :=
  let xv : Fin 4 → ℚ := fun i => x.getD i 0
  let yv : Fin 4 → ℚ := fun i => y.getD i 0
  let iters := simdGo 4 (xv, yv) s.limit (fun _ => 0, fun _ => 0) fun _ => 0
  List.ofFn fun i : Fin 4 =>
    if iters i < s.limit then Bound.Unbounded (iters i) else Bound.Bounded

/-- The `impl BoundsChecker<f64> for f64x4` instance; `mask()` is
`vec![0, 1, 2, 3]`. -/
def f64x4Backend : Backend :=
  { check_bounded := checkBoundedF64x4, mask := [0, 1, 2, 3] }

/-- The `impl BoundsChecker<f64> for f32x8` `check_bounded` (bounded.rs
lines 84-124).  The source converts every f64 input with `as f32`
(modelled by the abstract `toF32`); the final comparison is against
`settings.limit as u32` (exact here, integers being modelled as Nat). -/
def checkBoundedF32x8 (toF32 : ℚ → ℚ) (x y : List ℚ) (s : BoundsSettings) : List Bound :=
  let xv : Fin 8 → ℚ := fun i => (x.map toF32).getD i 0
  let yv : Fin 8 → ℚ := fun i => (y.map toF32).getD i 0
  let iters := simdGo 8 (xv, yv) s.limit (fun _ => 0, fun _ => 0) fun _ => 0
  List.ofFn fun i : Fin 8 =>
    if iters i < s.limit then Bound.Unbounded (iters i) else Bound.Bounded

/-- The `impl BoundsChecker<f64> for f32x8` instance; `mask()` is
`vec![0, 1, 2, 3, 4, 5, 6, 7]`. -/
def f32x8Backend (toF32 : ℚ → ℚ) : Backend :=
  { check_bounded := checkBoundedF32x8 toF32, mask := [0, 1, 2, 3, 4, 5, 6, 7] }

/-- Abstract rounding behaviour of the rug arbitrary-precision arithmetic:
`rnd` rounds a real scalar result to the working precision, `rnd2` a
complex result, `rndR` the computed norm.  Every rug operation that
produces a Float or Complex at the working precision is modelled as the
exact rational operation followed by the corresponding abstract rounding. -/
structure HPRound where
  rnd : ℚ → ℚ
  rnd2 : ℚ × ℚ → ℚ × ℚ
  rndR : ℚ → ℚ

/-- The `while iter < settings.limit` loop of
`impl BoundsChecker<Float> for Complex` (bounded.rs lines 64-74):
`z_temp = z.square()` rounded, `z = z_temp + c` rounded, then the rounded
norm is compared against 4, with the same early-return-on-escape shape as
the scalar backends. -/
def hpGo (hp : HPRound) (c : ℚ × ℚ) : Nat → ℚ × ℚ → Nat → Bound
  | 0, _, _ => Bound.Bounded
  | fuel + 1, z, iter =>
    let zt := hp.rnd2 (z.1 * z.1 - z.2 * z.2, 2 * z.1 * z.2)
    let z' := hp.rnd2 (zt.1 + c.1, zt.2 + c.2)
    let nrm := hp.rndR (zNormSq z')
    if nrm < 4 then hpGo hp c fuel z' (iter + 1) else Bound.Unbounded iter

/-- The `impl BoundsChecker<Float> for Complex` `check_bounded`
(bounded.rs lines 59-76): `c = Complex::with_val(precision, (x[0], y[0]))`
(a rounded copy of the inputs), `z = Complex::with_val(precision, (0, 0))`. -/
def checkBoundedHP (hp : HPRound) (x y : List ℚ) (s : BoundsSettings) : List Bound :=
  [hpGo hp (hp.rnd2 (x.headI, y.headI)) s.limit (hp.rnd2 (0, 0)) 0]

/-- The `impl BoundsChecker<Float> for Complex` instance; `mask()` is
`vec![0]`. -/
def hpBackend (hp : HPRound) : Backend :=
  { check_bounded := checkBoundedHP hp, mask := [0] }

/-- Rust enum `ComputeEngine` (compute.rs lines 13-19). -/
inductive ComputeEngine where
  | Single : ComputeEngine
  | Double : ComputeEngine
  | SimdF32x8 : ComputeEngine
  | SimdF64x4 : ComputeEngine
  | Precision : ComputeEngine
deriving DecidableEq

/-- `ComputeEngine::LIST` (compute.rs lines 22-28). -/
def ComputeEngine.LIST : List ComputeEngine :=
  [ComputeEngine.Single, ComputeEngine.Double, ComputeEngine.SimdF32x8,
   ComputeEngine.SimdF64x4, ComputeEngine.Precision]

/-- Rust struct `ComputeSettings` (compute.rs lines 31-39). -/
structure ComputeSettings where
  x : ℚ
  y : ℚ
  scale : ℚ
  width : Nat
  height : Nat
  engine : ComputeEngine
  bounds : BoundsSettings

/-- Rust struct `ComputedSet` (compute.rs lines 77-81): dimensions plus an
optional flat row-major data vector. -/
structure ComputedSet where
  width : Nat
  height : Nat
  data : Option (List Bound)
deriving DecidableEq

/-- `ComputedSet::new` (compute.rs lines 84-90). -/
def ComputedSet.new (width height : Nat) (data : List Bound) : ComputedSet :=
  { width := width, height := height, data := some data }

/-- `ComputedSet::empty` (compute.rs lines 92-98). -/
def ComputedSet.empty (width height : Nat) : ComputedSet :=
  { width := width, height := height, data := none }

/-- `ComputedSet::get_size` (compute.rs lines 100-102). -/
def ComputedSet.get_size (c : ComputedSet) : Nat × Nat :=
  (c.width, c.height)

/-- Rust enum `ComputeEvent` (ui/events.rs): `Start`,
`Progress((row, total))`, `End`. -/
inductive ComputeEvent where
  | Start : ComputeEvent
  | Progress : Nat → Nat → ComputeEvent
  | End : ComputeEvent
deriving DecidableEq

/-- One `sender.send(event).unwrap()` on the optional progress channel.
With no observer nothing is sent; with a connected observer the event is
appended; with a disconnected observer `send` returns Err and the
`.unwrap()` panics (modelled as `none`). -/
def sendEvent (obs : Option Bool) (e : ComputeEvent) (acc : List ComputeEvent) :
    Option (List ComputeEvent) :=
  match obs with
  | none => some acc
  | some true => some (acc ++ [e])
  | some false => none

/-- The slice-and-write `out[x..x+k] .. zip .. write` pattern of the
backends inside `compute_row`: taking the subslice `out[x..x+k]` panics
when `x + k > out.len()` (modelled as `none`); otherwise the checker
results are zip-written over the subslice (writing
`min(vals.len(), k)` entries). -/
def spliceAt (out : List Bound) (x k : Nat) (vals : List Bound) : Option (List Bound) :=
  if x + k ≤ out.length then
    some (out.take x ++ (vals.take k ++ ((out.drop x).take k).drop vals.length)
      ++ out.drop (x + k))
  else none

/-- The batch start columns produced by `(0..width).step_by(k)`
(compute.rs line 292): `0, k, 2k, ...` while below `width`. -/
def batchStarts (width k : Nat) : List Nat :=
  List.range' 0 ((width + k - 1) / k) k

/-- Loop body of `Compute::compute_row` (compute.rs lines 292-301) over the
list of batch start columns: build the coordinate batch
`xx[i] = coord (x + i)`, replicate the row ordinate, call the backend and
write the results over `out[x..x+k]`. -/
def computeRowGo (T : Backend) (coord : Nat → ℚ) (yy : ℚ) (s : BoundsSettings) :
    List Nat → List Bound → Option (List Bound)
  | [], out => some out
  | x :: rest, out =>
    let k := T.mask.length
    let xx := (List.range k).map fun i => coord (x + i)
    let yys := List.replicate k yy
    match spliceAt out x k (T.check_bounded xx yys s) with
    | none => none
    | some out' => computeRowGo T coord yy s rest out'

/-- `Compute::compute_row` (compute.rs lines 283-302): `step_by` is the
mask length, `yy = start[1] + step * y`, and each batch uses the
coordinates `start[0] + step * (x + i)`. -/
def computeRow (T : Backend) (y : Nat) (start : ℚ × ℚ) (step : ℚ) (width : Nat)
    (s : BoundsSettings) (out : List Bound) : Option (List Bound) :=
  computeRowGo T (fun j => start.1 + step * (j : ℚ)) (start.2 + step * (y : ℚ)) s
    (batchStarts width T.mask.length) out

/-- The sequential branch of `compute_set_with_engine` (compute.rs lines
157-168): for each row index in order, compute the row in place on the
grid slice `output[y*width..(y+1)*width]` and send `Progress((y, height))`. -/
def seqLoop (rowFn : Nat → List Bound → Option (List Bound)) (obs : Option Bool)
    (width height : Nat) :
    List Nat → List Bound → List ComputeEvent → Option (List Bound × List ComputeEvent)
  | [], out, acc => some (out, acc)
  | y :: rest, out, acc =>
    match rowFn y ((out.drop (y * width)).take width) with
    | none => none
    | some row =>
      let out' := out.take (y * width) ++ row ++ out.drop (y * width + width)
      match sendEvent obs (ComputeEvent.Progress y height) acc with
      | none => none
      | some acc' => seqLoop rowFn obs width height rest out' acc'

/-- The worker tasks of the parallel branch (compute.rs lines 171-179): for
each spawned row index, compute the row into a private
`vec![Bound::Bounded; width]` buffer and send `(y, out)` on the result
channel.  The list argument is the completion order in which the results
arrive on the channel; a worker panic (a row computation failing) makes
the subsequent `rx.recv().unwrap()` panic, modelled by `none`. -/
def parTasks (rowFn : Nat → List Bound → Option (List Bound)) (width : Nat) :
    List Nat → Option (List (Nat × List Bound))
  | [] => some []
  | y :: rest =>
    match rowFn y (List.replicate width Bound.Bounded) with
    | none => none
    | some row =>
      match parTasks rowFn width rest with
      | none => none
      | some rows => some ((y, row) :: rows)

/-- The drain loop of the parallel branch (compute.rs lines 180-193): for
`n in 0..height`, receive the next `(y, row)` pair in completion order,
zip-copy it into the grid at offset `y * width`, and send
`Progress((n, height))` — note the drain counter `n`, not the received row
index `y`, is what the source puts into the event. -/
def parLoop (obs : Option Bool) (width height : Nat) :
    List (Nat × List Bound) → Nat → List Bound → List ComputeEvent →
      Option (List Bound × List ComputeEvent)
  | [], _, out, acc => some (out, acc)
  | (y, row) :: rest, n, out, acc =>
    let out' := out.take (y * width) ++ row.take (out.length - y * width)
      ++ out.drop (y * width + row.length)
    match sendEvent obs (ComputeEvent.Progress n height) acc with
    | none => none
    | some acc' => parLoop obs width height rest (n + 1) out' acc'

/-- The shared shape of `compute_set_with_engine` and
`compute_set_with_engine_hp` after the coordinate setup (compute.rs lines
151-198 and 223-279): send `Start`, allocate
`vec![Bound::Bounded; width*height]`, run the sequential loop or fan out
one task per row and drain exactly `height` tagged results, then send
`End`. -/
def computeSetLoop (rowFn : Nat → List Bound → Option (List Bound))
    (pool : Option (List Nat)) (obs : Option Bool) (width height : Nat) :
    Option (List Bound × List ComputeEvent) :=
  match sendEvent obs ComputeEvent.Start [] with
  | none => none
  | some acc =>
    let output := List.replicate (width * height) Bound.Bounded
    let afterRows :=
      match pool with
      | none => seqLoop rowFn obs width height (List.range height) output acc
      | some order =>
        match parTasks rowFn width order with
        | none => none
        | some rows => parLoop obs width height rows 0 output acc
    match afterRows with
    | none => none
    | some (out, acc) =>
      match sendEvent obs ComputeEvent.End acc with
      | none => none
      | some acc' => some (out, acc')

/-- `ratio = width / height` (compute.rs line 144). -/
def ratioOf (st : ComputeSettings) : ℚ :=
  (st.width : ℚ) / (st.height : ℚ)

/-- `x_start = x - (scale * ratio) / 2` (compute.rs line 147). -/
def xStartOf (st : ComputeSettings) : ℚ :=
  st.x - st.scale * ratioOf st / 2

/-- `y_start = y - scale / 2` (compute.rs line 148). -/
def yStartOf (st : ComputeSettings) : ℚ :=
  st.y - st.scale / 2

/-- `step = (scale * ratio) / width` (compute.rs line 149). -/
def stepOf (st : ComputeSettings) : ℚ :=
  st.scale * ratioOf st / (st.width : ℚ)

/-- `Compute::compute_set_with_engine::<T>` (compute.rs lines 139-200). -/
def computeSetWithEngine (T : Backend) (pool : Option (List Nat)) (obs : Option Bool)
    (st : ComputeSettings) : Option (ComputedSet × List ComputeEvent) :=
  match computeSetLoop
      (fun y out => computeRow T y (xStartOf st, yStartOf st) (stepOf st) st.width st.bounds out)
      pool obs st.width st.height with
  | none => none
  | some (out, acc) => some (ComputedSet.new st.width st.height out, acc)

/-- The rounded viewport mapping of `compute_set_with_engine_hp`
(compute.rs lines 207-221), with every rug operation producing a value at
the working precision modelled by the abstract rounding `hp.rnd`. -/
def hpRatioOf (hp : HPRound) (st : ComputeSettings) : ℚ :=
  hp.rnd ((hp.rnd (st.width : ℚ)) / (hp.rnd (st.height : ℚ)))

/-- `x_start` of the hp engine (compute.rs lines 213-216). -/
def hpXStartOf (hp : HPRound) (st : ComputeSettings) : ℚ :=
  hp.rnd (st.x - hp.rnd (st.scale * hpRatioOf hp st) / 2)

/-- `y_start` of the hp engine (compute.rs lines 217-220). -/
def hpYStartOf (hp : HPRound) (st : ComputeSettings) : ℚ :=
  hp.rnd (st.y - hp.rnd (st.scale / 2))

/-- `step` of the hp engine (compute.rs line 221). -/
def hpStepOf (hp : HPRound) (st : ComputeSettings) : ℚ :=
  hp.rnd (hp.rnd (st.scale * hpRatioOf hp st) / hp.rnd (st.width : ℚ))

/-- `Compute::compute_row_hp` (compute.rs lines 304-324): the coordinates
are built with rug operations at the working precision,
`yy = start[1] + step * y` and `xx[i] = start[0] + step * (x + i)`, each
rounded. -/
def computeRowHP (hp : HPRound) (y : Nat) (start : ℚ × ℚ) (step : ℚ) (width : Nat)
    (s : BoundsSettings) (out : List Bound) : Option (List Bound) :=
  computeRowGo (hpBackend hp) (fun j => hp.rnd (start.1 + hp.rnd (step * hp.rnd (j : ℚ))))
    (hp.rnd (start.2 + hp.rnd (step * hp.rnd (y : ℚ)))) s
    (batchStarts width (hpBackend hp).mask.length) out

/-- `Compute::compute_set_with_engine_hp::<Complex>` (compute.rs lines
202-281). -/
def computeSetWithEngineHP (hp : HPRound) (pool : Option (List Nat)) (obs : Option Bool)
    (st : ComputeSettings) : Option (ComputedSet × List ComputeEvent) :=
  match computeSetLoop
      (fun y out => computeRowHP hp y (hpXStartOf hp st, hpYStartOf hp st) (hpStepOf hp st)
        st.width st.bounds out)
      pool obs st.width st.height with
  | none => none
  | some (out, acc) => some (ComputedSet.new st.width st.height out, acc)

/-- `Compute::compute_set` (compute.rs lines 115-137): dispatch on the
selected engine. -/
def computeSet (toF32 : ℚ → ℚ) (hp : HPRound) (pool : Option (List Nat))
    (obs : Option Bool) (st : ComputeSettings) : Option (ComputedSet × List ComputeEvent) :=
  match st.engine with
  | ComputeEngine.Single => computeSetWithEngine f32Backend pool obs st
  | ComputeEngine.Double => computeSetWithEngine f64Backend pool obs st
  | ComputeEngine.Precision => computeSetWithEngineHP hp pool obs st
  | ComputeEngine.SimdF32x8 => computeSetWithEngine (f32x8Backend toF32) pool obs st
  | ComputeEngine.SimdF64x4 => computeSetWithEngine f64x4Backend pool obs st

/-- The Bound that `compute_row` computes for column `col` of a row: the
`col % k` lane of the batch that starts at column `(col / k) * k`. -/
def rowSpec (T : Backend) (coord : Nat → ℚ) (yy : ℚ) (s : BoundsSettings) (col : Nat) : Bound :=
  let k := T.mask.length
  (T.check_bounded ((List.range k).map fun i => coord (col / k * k + i))
      (List.replicate k yy) s).getD (col % k) Bound.Bounded

/-- The per-pixel reference value for the non-hp engines: the backend's
result for pixel (col, row) under the viewport mapping of
`compute_set_with_engine`. -/
def pixelBound (T : Backend) (st : ComputeSettings) (col row : Nat) : Bound :=
  rowSpec T (fun j => xStartOf st + stepOf st * (j : ℚ))
    (yStartOf st + stepOf st * (row : ℚ)) st.bounds col

/-- The per-pixel reference value for the Precision engine. -/
def pixelBoundHP (hp : HPRound) (st : ComputeSettings) (col row : Nat) : Bound :=
  rowSpec (hpBackend hp)
    (fun j => hp.rnd (hpXStartOf hp st + hp.rnd (hpStepOf hp st * hp.rnd (j : ℚ))))
    (hp.rnd (hpYStartOf hp st + hp.rnd (hpStepOf hp st * hp.rnd (row : ℚ)))) st.bounds col

/-- The per-pixel reference value for pixel (col, row) under the engine
that `compute_set` dispatches to. -/
def enginePixel (toF32 : ℚ → ℚ) (hp : HPRound) (st : ComputeSettings) (col row : Nat) : Bound :=
  match st.engine with
  | ComputeEngine.Single => pixelBound f32Backend st col row
  | ComputeEngine.Double => pixelBound f64Backend st col row
  | ComputeEngine.Precision => pixelBoundHP hp st col row
  | ComputeEngine.SimdF32x8 => pixelBound (f32x8Backend toF32) st col row
  | ComputeEngine.SimdF64x4 => pixelBound f64x4Backend st col row

/-- Batch width of the backend that `compute_set` dispatches to for a given
engine selector. -/
def engineBatchWidth : ComputeEngine → Nat
  | ComputeEngine.Single => 1
  | ComputeEngine.Double => 1
  | ComputeEngine.Precision => 1
  | ComputeEngine.SimdF32x8 => 8
  | ComputeEngine.SimdF64x4 => 4

/-- The progress observer is either absent or connected (the situations in
which no send panics). -/
def obsOk (obs : Option Bool) : Prop :=
  obs = none ∨ obs = some true

/-- A row function reliably produces the row described by a per-pixel
specification: on any width-sized buffer it succeeds and returns exactly
the specified row. -/
def RowOk (rowFn : Nat → List Bound → Option (List Bound)) (width : Nat)
    (spec : Nat → Nat → Bound) : Prop :=
  ∀ y out, out.length = width → rowFn y out = some ((List.range width).map (spec y))

/-- A backend writes exactly batch-width many results per call. -/
def BackendOk (T : Backend) : Prop :=
  ∀ x y s, (T.check_bounded x y s).length = T.mask.length

/-- The events that actually reach the observer: everything when the
observer is connected, nothing when there is no observer. -/
def emitted (obs : Option Bool) (es : List ComputeEvent) : List ComputeEvent :=
  match obs with
  | some true => es
  | _ => []

/-- The event stream of one successful computation of `height` rows: one
`Start`, the `height` progress events the source sends (their indices are
`0, 1, ..., height-1` in this order in both execution modes), one `End`. -/
def Estream (height : Nat) : List ComputeEvent :=
  [ComputeEvent.Start] ++
    ((List.range height).map fun y => ComputeEvent.Progress y height) ++
    [ComputeEvent.End]

/-- Invariant of an escaped orbit point: its squared magnitude is at least
the escape threshold 4 and at least the squared magnitude of c.  Once a
lane satisfies this, every further `z^2 + c` update keeps satisfying it, so
the lane's SIMD mask stays false forever. -/
def escInv (c z : ℚ × ℚ) : Prop :=
  4 ≤ zNormSq z ∧ zNormSq c ≤ zNormSq z

/-- Relation between one SIMD lane's state `(z, iter)` and the final Bound
`A` that the corresponding scalar backend computes for that lane's input:
either the lane is still active (its scalar continuation from this state
yields `A`, it has incremented its counter on every step so far, and it is
either at the start or below the escape threshold in c), or the lane has
escaped (its state satisfies `escInv`, and its frozen counter is the
recorded escape iteration). -/
def LaneOk (limit fuel : Nat) (c z : ℚ × ℚ) (iti : Nat) (A : Bound) : Prop :=
  (iti + fuel = limit ∧ primGo c fuel z iti = A ∧ (zNormSq c ≤ 4 ∨ z = (0, 0)))
  ∨ (escInv c z ∧ iti < limit ∧ A = Bound.Unbounded iti)

lemma length_splice (g vals : List Bound) (off : Nat) (h : off + vals.length ≤ g.length) :
    (g.take off ++ vals ++ g.drop (off + vals.length)).length = g.length := by
  have hoff : off ≤ g.length := le_trans (Nat.le_add_right _ _) h
  simp only [List.length_append, List.length_take, List.length_drop]
  omega

lemma getElem?_splice (g vals : List Bound) (off idx : Nat) (h : off + vals.length ≤ g.length) :
    (g.take off ++ vals ++ g.drop (off + vals.length))[idx]? =
      if idx < off then g[idx]?
      else if idx < off + vals.length then vals[idx - off]?
      else g[idx]? := by
  have hoff : off ≤ g.length := le_trans (Nat.le_add_right _ _) h
  have hlt : (g.take off).length = off := by
    simp only [List.length_take]
    omega
  rw [List.append_assoc]
  by_cases h1 : idx < off
  · rw [if_pos h1, List.getElem?_append_left (by rw [hlt]; exact h1), List.getElem?_take,
      if_pos h1]
  · rw [if_neg h1, List.getElem?_append_right (by rw [hlt]; omega), hlt]
    by_cases h2 : idx < off + vals.length
    · rw [if_pos h2, List.getElem?_append_left (by omega)]
    · rw [if_neg h2, List.getElem?_append_right (by omega), List.getElem?_drop]
      congr 1
      omega

lemma spliceAt_eq (out vals : List Bound) (x k : Nat) (hv : vals.length = k)
    (h : x + k ≤ out.length) :
    spliceAt out x k vals = some (out.take x ++ vals ++ out.drop (x + vals.length)) := by
  unfold spliceAt
  rw [if_pos h]
  have h1 : vals.take k = vals := by rw [← hv]; exact List.take_length vals
  have h2 : ((out.drop x).take k).drop vals.length = [] :=
    List.drop_eq_nil_of_le (by rw [hv]; exact List.length_take_le _ _)
  rw [h1, h2, List.append_nil, hv]

lemma spliceAt_fail (out vals : List Bound) (x k : Nat) (h : out.length < x + k) :
    spliceAt out x k vals = none := by
  unfold spliceAt
  rw [if_neg (by omega)]

lemma computeRowGo_spec (T : Backend) (coord : Nat → ℚ) (yy : ℚ) (s : BoundsSettings)
    (hT : BackendOk T) :
    ∀ (n m : Nat) (out : List Bound),
      m * T.mask.length + n * T.mask.length ≤ out.length →
      ∃ r, computeRowGo T coord yy s (List.range' (m * T.mask.length) n T.mask.length) out
          = some r ∧
        r.length = out.length ∧
        ∀ idx, r[idx]? =
          if m * T.mask.length ≤ idx ∧ idx < m * T.mask.length + n * T.mask.length
          then some (rowSpec T coord yy s idx) else out[idx]? := by
  intro n
  induction n with
  | zero =>
    intro m out hbound
    exact ⟨out, rfl, rfl, fun idx => by rw [if_neg (by omega)]⟩
  | succ n ih =>
    intro m out hbound
    have hsm : (n + 1) * T.mask.length = n * T.mask.length + T.mask.length :=
      Nat.succ_mul n T.mask.length
    have hsm2 : m * T.mask.length + T.mask.length = (m + 1) * T.mask.length :=
      (Nat.succ_mul m T.mask.length).symm
    set k := T.mask.length with hkdef
    have hvals : (T.check_bounded ((List.range k).map fun i => coord (m * k + i))
        (List.replicate k yy) s).length = k := hT _ _ _
    have hsplice := spliceAt_eq out _ (m * k) k hvals (by omega)
    rw [List.range'_succ]
    simp only [computeRowGo]
    rw [hsplice]
    have hout' := length_splice out
      (T.check_bounded ((List.range k).map fun i => coord (m * k + i))
        (List.replicate k yy) s) (m * k) (by omega)
    obtain ⟨r, hgo, hlen, hget⟩ := ih (m + 1)
      (out.take (m * k) ++ (T.check_bounded ((List.range k).map fun i => coord (m * k + i))
        (List.replicate k yy) s) ++ out.drop (m * k +
        (T.check_bounded ((List.range k).map fun i => coord (m * k + i))
          (List.replicate k yy) s).length)) (by rw [hout']; omega)
    rw [← hsm2] at hgo
    refine ⟨r, hgo, by rw [hlen, hout'], fun idx => ?_⟩
    rw [hget idx, getElem?_splice out _ (m * k) idx (by omega), hvals]
    by_cases hc1 : idx < m * k
    · rw [if_neg (by omega), if_pos hc1, if_neg (by omega)]
    · by_cases hc2 : idx < m * k + k
      · rw [if_neg (by omega), if_neg hc1, if_pos hc2, if_pos (by omega)]
        have hdiv : idx / k = m := Nat.div_eq_of_lt_le (by omega) (by omega)
        have hda := Nat.div_add_mod idx k
        rw [hdiv] at hda
        have hcm : k * m = m * k := Nat.mul_comm k m
        have hmod : idx % k = idx - m * k := by omega
        have hidxlt : idx - m * k <
            (T.check_bounded ((List.range k).map fun i => coord (m * k + i))
              (List.replicate k yy) s).length := by rw [hvals]; omega
        rw [List.getElem?_eq_getElem hidxlt]
        simp only [rowSpec]
        rw [← hkdef, hdiv, hmod]
        congr 1
        rw [List.getD_eq_getElem?_getD, List.getElem?_eq_getElem hidxlt]
        rfl
      · by_cases hc3 : idx < m * k + (n + 1) * k
        · rw [if_pos (by omega), if_pos (by omega)]
        · rw [if_neg (by omega), if_neg (by omega), if_neg (by omega), if_neg (by omega)]

lemma batchStarts_dvd (width k : Nat) (hk : 0 < k) (hdvd : k ∣ width) :
    batchStarts width k = List.range' 0 (width / k) k := by
  obtain ⟨q, rfl⟩ := hdvd
  unfold batchStarts
  congr 1
  rw [Nat.mul_div_cancel_left q hk]
  rcases Nat.eq_zero_or_pos q with hq | hq
  · subst hq
    have h0 : k * 0 + k - 1 = k - 1 := by omega
    rw [h0, Nat.div_eq_of_lt (by omega)]
  · have h1 : k * q + k - 1 = k - 1 + k * q := by omega
    rw [h1, Nat.add_mul_div_left _ _ hk, Nat.div_eq_of_lt (by omega), Nat.zero_add]

lemma computeRowGo_full (T : Backend) (hT : BackendOk T) (hk : 0 < T.mask.length)
    (coord : Nat → ℚ) (yy : ℚ) (s : BoundsSettings) (width : Nat)
    (hdvd : T.mask.length ∣ width) (out : List Bound) (hout : out.length = width) :
    computeRowGo T coord yy s (batchStarts width T.mask.length) out =
      some ((List.range width).map (rowSpec T coord yy s)) := by
  rw [batchStarts_dvd width T.mask.length hk hdvd]
  obtain ⟨r, hgo, hlen, hget⟩ := computeRowGo_spec T coord yy s hT (width / T.mask.length) 0 out
    (by rw [Nat.zero_mul, Nat.zero_add, Nat.div_mul_cancel hdvd, hout])
  rw [Nat.zero_mul] at hgo
  rw [hgo]
  congr 1
  apply List.ext_getElem?
  intro idx
  simp only [Nat.zero_mul, Nat.zero_add, Nat.div_mul_cancel hdvd, Nat.zero_le, true_and] at hget
  rw [hget idx]
  by_cases h : idx < width
  · rw [if_pos h, List.getElem?_map, List.getElem?_range h]
    rfl
  · rw [if_neg h, List.getElem?_eq_none (by rw [hout]; omega),
      List.getElem?_eq_none (by simp only [List.length_map, List.length_range]; omega)]

lemma f64Backend_ok : BackendOk f64Backend := fun _ _ _ => rfl

lemma f32Backend_ok : BackendOk f32Backend := fun _ _ _ => rfl

lemma f64x4Backend_ok : BackendOk f64x4Backend := by
  intro x y s
  simp [f64x4Backend, checkBoundedF64x4]

lemma f32x8Backend_ok (toF32 : ℚ → ℚ) : BackendOk (f32x8Backend toF32) := by
  intro x y s
  simp [f32x8Backend, checkBoundedF32x8]

lemma hpBackend_ok (hp : HPRound) : BackendOk (hpBackend hp) := fun _ _ _ => rfl

lemma emitted_nil (obs : Option Bool) : emitted obs [] = [] := by
  cases obs with
  | none => rfl
  | some b => cases b <;> rfl

lemma emitted_append (obs : Option Bool) (a b : List ComputeEvent) :
    emitted obs (a ++ b) = emitted obs a ++ emitted obs b := by
  cases obs with
  | none => rfl
  | some b' => cases b' <;> rfl

lemma sendEvent_ok (obs : Option Bool) (hobs : obsOk obs) (e : ComputeEvent)
    (acc : List ComputeEvent) :
    sendEvent obs e acc = some (acc ++ emitted obs [e]) := by
  rcases hobs with h | h <;> subst h <;> simp [sendEvent, emitted]

lemma rowBound_mul (width height y : Nat) (hy : y < height) :
    y * width + width ≤ width * height := by
  have h1 := Nat.mul_le_mul_right width (show y + 1 ≤ height from hy)
  have h2 : (y + 1) * width = y * width + width := by ring
  have h3 : height * width = width * height := Nat.mul_comm height width
  omega

lemma seqLoop_spec (rowFn : Nat → List Bound → Option (List Bound)) (obs : Option Bool)
    (width height : Nat) (spec : Nat → Nat → Bound) (hobs : obsOk obs)
    (hrow : RowOk rowFn width spec) (hw : 0 < width) :
    ∀ (ys : List Nat) (out : List Bound) (acc : List ComputeEvent),
      out.length = width * height → (∀ y ∈ ys, y < height) →
      ∃ g, seqLoop rowFn obs width height ys out acc =
          some (g, acc ++ emitted obs (ys.map fun y => ComputeEvent.Progress y height)) ∧
        g.length = width * height ∧
        ∀ idx, g[idx]? = if idx / width ∈ ys then some (spec (idx / width) (idx % width))
          else out[idx]? := by
  intro ys
  induction ys with
  | nil =>
    intro out acc hlen _
    refine ⟨out, ?_, hlen, fun idx => by rw [if_neg (by simp)]⟩
    simp [seqLoop, emitted_nil]
  | cons y rest ih =>
    intro out acc hlen hmem
    have hy : y < height := hmem y (by simp)
    have hbd : y * width + width ≤ width * height := rowBound_mul width height y hy
    have hslice : ((out.drop (y * width)).take width).length = width := by
      simp only [List.length_take, List.length_drop]
      omega
    have hrowEq := hrow y _ hslice
    have hsend := sendEvent_ok obs hobs (ComputeEvent.Progress y height) acc
    have hrl : ((List.range width).map (spec y)).length = width := by simp
    have hshape : out.take (y * width) ++ (List.range width).map (spec y)
        ++ out.drop (y * width + width)
        = out.take (y * width) ++ (List.range width).map (spec y)
        ++ out.drop (y * width + ((List.range width).map (spec y)).length) := by
      rw [hrl]
    have hout'len : (out.take (y * width) ++ (List.range width).map (spec y)
        ++ out.drop (y * width + width)).length = width * height := by
      rw [hshape, length_splice _ _ _ (by omega)]
      exact hlen
    obtain ⟨g, hloop, hglen, hget⟩ := ih
      (out.take (y * width) ++ (List.range width).map (spec y)
        ++ out.drop (y * width + width))
      (acc ++ emitted obs [ComputeEvent.Progress y height]) hout'len
      (fun y' hy' => hmem y' (by simp [hy']))
    refine ⟨g, ?_, hglen, fun idx => ?_⟩
    · simp only [seqLoop, hrowEq, hsend]
      rw [hloop]
      simp only [List.map_cons]
      have hc : (ComputeEvent.Progress y height ::
          List.map (fun y => ComputeEvent.Progress y height) rest)
          = [ComputeEvent.Progress y height]
            ++ List.map (fun y => ComputeEvent.Progress y height) rest := rfl
      rw [List.append_assoc, hc, emitted_append]
    · rw [hget idx]
      by_cases h1 : idx / width ∈ rest
      · rw [if_pos h1, if_pos (by simp [h1])]
      · rw [if_neg h1, hshape, getElem?_splice out _ (y * width) idx (by omega)]
        rw [hrl]
        by_cases h2 : idx / width = y
        · have hda := Nat.div_add_mod idx width
          rw [h2] at hda
          have hmlt : idx % width < width := Nat.mod_lt idx hw
          have hcm : width * y = y * width := Nat.mul_comm width y
          rw [if_neg (by omega), if_pos (by omega),
            List.getElem?_map, List.getElem?_range (by omega : idx - y * width < width),
            if_pos (show idx / width ∈ y :: rest by rw [h2]; exact List.mem_cons_self y rest)]
          have hsub : idx - y * width = idx % width := by omega
          rw [hsub, h2]
          rfl
        · by_cases h3 : idx < y * width
          · rw [if_pos h3, if_neg (by simp [List.mem_cons, h1, h2])]
          · have hsm : (y + 1) * width = y * width + width := by ring
            have h4 : ¬ idx < y * width + width := by
              intro hc
              exact h2 (Nat.div_eq_of_lt_le (by omega) (by omega))
            rw [if_neg h3, if_neg h4, if_neg (by simp [List.mem_cons, h1, h2])]

lemma parTasks_spec (rowFn : Nat → List Bound → Option (List Bound)) (width : Nat)
    (spec : Nat → Nat → Bound) (hrow : RowOk rowFn width spec) :
    ∀ ys : List Nat, parTasks rowFn width ys =
      some (ys.map fun y => (y, (List.range width).map (spec y))) := by
  intro ys
  induction ys with
  | nil => rfl
  | cons y rest ih =>
    simp only [parTasks, hrow y _ (List.length_replicate width Bound.Bounded), ih,
      List.map_cons]

lemma parLoop_spec (obs : Option Bool) (width height : Nat) (spec : Nat → Nat → Bound)
    (hobs : obsOk obs) (hw : 0 < width) :
    ∀ (pairs : List (Nat × List Bound)) (n : Nat) (out : List Bound)
      (acc : List ComputeEvent),
      out.length = width * height →
      (∀ p ∈ pairs, p.1 < height ∧ p.2 = (List.range width).map (spec p.1)) →
      ∃ g, parLoop obs width height pairs n out acc =
          some (g, acc ++ emitted obs ((List.range' n pairs.length).map
            fun j => ComputeEvent.Progress j height)) ∧
        g.length = width * height ∧
        ∀ idx, g[idx]? = if idx / width ∈ pairs.map Prod.fst
          then some (spec (idx / width) (idx % width)) else out[idx]? := by
  intro pairs
  induction pairs with
  | nil =>
    intro n out acc hlen _
    refine ⟨out, ?_, hlen, fun idx => by rw [if_neg (by simp)]⟩
    simp [parLoop, emitted_nil]
  | cons p rest ih =>
    intro n out acc hlen hmem
    obtain ⟨y, row⟩ := p
    obtain ⟨hy, hroweq⟩ := hmem (y, row) (by simp)
    dsimp only at hy hroweq
    have hbd : y * width + width ≤ width * height := rowBound_mul width height y hy
    have hrl : row.length = width := by rw [hroweq]; simp
    have htake : row.take (out.length - y * width) = row :=
      List.take_of_length_le (by omega)
    have hsend := sendEvent_ok obs hobs (ComputeEvent.Progress n height) acc
    have hshape : out.take (y * width) ++ row.take (out.length - y * width)
        ++ out.drop (y * width + row.length)
        = out.take (y * width) ++ row ++ out.drop (y * width + row.length) := by
      rw [htake]
    have hout'len : (out.take (y * width) ++ row.take (out.length - y * width)
        ++ out.drop (y * width + row.length)).length = width * height := by
      rw [hshape, length_splice _ _ _ (by omega)]
      exact hlen
    obtain ⟨g, hloop, hglen, hget⟩ := ih (n + 1)
      (out.take (y * width) ++ row.take (out.length - y * width)
        ++ out.drop (y * width + row.length))
      (acc ++ emitted obs [ComputeEvent.Progress n height]) hout'len
      (fun p' hp' => hmem p' (by simp [hp']))
    refine ⟨g, ?_, hglen, fun idx => ?_⟩
    · simp only [parLoop, hsend]
      rw [hloop]
      simp only [List.length_cons, List.range'_succ, List.map_cons]
      have hc : (ComputeEvent.Progress n height ::
          List.map (fun j => ComputeEvent.Progress j height) (List.range' (n + 1) rest.length))
          = [ComputeEvent.Progress n height]
            ++ List.map (fun j => ComputeEvent.Progress j height)
              (List.range' (n + 1) rest.length) := rfl
      rw [List.append_assoc, hc, emitted_append]
    · rw [hget idx]
      simp only [List.map_cons]
      by_cases h1 : idx / width ∈ rest.map Prod.fst
      · rw [if_pos h1, if_pos (by simp [h1])]
      · rw [if_neg h1, hshape, getElem?_splice out _ (y * width) idx (by omega)]
        rw [hrl]
        by_cases h2 : idx / width = y
        · have hda := Nat.div_add_mod idx width
          rw [h2] at hda
          have hmlt : idx % width < width := Nat.mod_lt idx hw
          have hcm : width * y = y * width := Nat.mul_comm width y
          rw [if_neg (by omega), if_pos (by omega), hroweq,
            List.getElem?_map, List.getElem?_range (by omega : idx - y * width < width),
            if_pos (show idx / width ∈ y :: rest.map Prod.fst by
              rw [h2]; exact List.mem_cons_self y _)]
          have hsub : idx - y * width = idx % width := by omega
          rw [hsub, h2]
          rfl
        · by_cases h3 : idx < y * width
          · rw [if_pos h3, if_neg (by simp [List.mem_cons, h1, h2])]
          · have hsm : (y + 1) * width = y * width + width := by ring
            have h4 : ¬ idx < y * width + width := by
              intro hc
              exact h2 (Nat.div_eq_of_lt_le (by omega) (by omega))
            rw [if_neg h3, if_neg h4, if_neg (by simp [List.mem_cons, h1, h2])]

lemma computeSetLoop_spec (rowFn : Nat → List Bound → Option (List Bound))
    (width height : Nat) (spec : Nat → Nat → Bound) (pool : Option (List Nat))
    (obs : Option Bool) (hobs : obsOk obs) (hrow : RowOk rowFn width spec) (hw : 0 < width)
    (hpool : ∀ order, pool = some order → order.Perm (List.range height)) :
    ∃ g, computeSetLoop rowFn pool obs width height
        = some (g, emitted obs (Estream height)) ∧
      g.length = width * height ∧
      ∀ idx, idx < width * height → g[idx]? = some (spec (idx / width) (idx % width)) := by
  have hdivlt : ∀ idx, idx < width * height → idx / width < height := by
    intro idx h
    rw [Nat.div_lt_iff_lt_mul hw, Nat.mul_comm height width]
    exact h
  cases pool with
  | none =>
    obtain ⟨g, hloop, hglen, hget⟩ := seqLoop_spec rowFn obs width height spec hobs hrow hw
      (List.range height) (List.replicate (width * height) Bound.Bounded)
      ([] ++ emitted obs [ComputeEvent.Start])
      (by simp) (fun y hy => List.mem_range.mp hy)
    refine ⟨g, ?_, hglen, fun idx h => ?_⟩
    · simp only [computeSetLoop, sendEvent_ok obs hobs, hloop]
      congr 1
      congr 1
      rw [List.nil_append, List.append_assoc, ← emitted_append, ← emitted_append]
      rfl
    · rw [hget idx, if_pos (List.mem_range.mpr (hdivlt idx h))]
  | some order =>
    have hperm := hpool order rfl
    have htasks := parTasks_spec rowFn width spec hrow order
    obtain ⟨g, hloop, hglen, hget⟩ := parLoop_spec obs width height spec hobs hw
      (order.map fun y => (y, (List.range width).map (spec y))) 0
      (List.replicate (width * height) Bound.Bounded)
      ([] ++ emitted obs [ComputeEvent.Start])
      (by simp)
      (by
        intro p hp
        obtain ⟨y, hy_mem, rfl⟩ := List.mem_map.mp hp
        exact ⟨List.mem_range.mp (hperm.mem_iff.mp hy_mem), rfl⟩)
    have hplen : (order.map fun y => (y, (List.range width).map (spec y))).length = height := by
      rw [List.length_map, hperm.length_eq, List.length_range]
    have hfst : (order.map fun y => (y, (List.range width).map (spec y))).map Prod.fst
        = order := by
      rw [List.map_map]
      exact List.map_id'' (fun x => rfl) order
    refine ⟨g, ?_, hglen, fun idx h => ?_⟩
    · simp only [computeSetLoop, sendEvent_ok obs hobs, htasks, hloop]
      congr 1
      congr 1
      rw [List.nil_append, hplen, ← List.range_eq_range', List.append_assoc,
        ← emitted_append, ← emitted_append]
      rfl
    · rw [hget idx, hfst, if_pos (hperm.mem_iff.mpr (List.mem_range.mpr (hdivlt idx h)))]

lemma rowOk_computeRow (T : Backend) (hT : BackendOk T) (hk : 0 < T.mask.length)
    (st : ComputeSettings) (hdvd : T.mask.length ∣ st.width) :
    RowOk (fun y out => computeRow T y (xStartOf st, yStartOf st) (stepOf st)
        st.width st.bounds out)
      st.width (fun y col => pixelBound T st col y) := by
  intro y out hout
  exact computeRowGo_full T hT hk _ _ st.bounds st.width hdvd out hout

lemma rowOk_computeRowHP (hp : HPRound) (st : ComputeSettings) :
    RowOk (fun y out => computeRowHP hp y (hpXStartOf hp st, hpYStartOf hp st)
        (hpStepOf hp st) st.width st.bounds out)
      st.width (fun y col => pixelBoundHP hp st col y) := by
  intro y out hout
  exact computeRowGo_full (hpBackend hp) (hpBackend_ok hp) (by simp [hpBackend]) _ _
    st.bounds st.width (one_dvd st.width) out hout

lemma computeSetWithEngine_spec (T : Backend) (pool : Option (List Nat)) (obs : Option Bool)
    (st : ComputeSettings) (hT : BackendOk T) (hk : 0 < T.mask.length)
    (hdvd : T.mask.length ∣ st.width) (hobs : obsOk obs) (hw : 0 < st.width)
    (hpool : ∀ order, pool = some order → order.Perm (List.range st.height)) :
    ∃ g, computeSetWithEngine T pool obs st =
        some (ComputedSet.new st.width st.height g, emitted obs (Estream st.height)) ∧
      g.length = st.width * st.height ∧
      ∀ idx, idx < st.width * st.height →
        g[idx]? = some (pixelBound T st (idx % st.width) (idx / st.width)) := by
  obtain ⟨g, hloop, hglen, hget⟩ := computeSetLoop_spec
    (fun y out => computeRow T y (xStartOf st, yStartOf st) (stepOf st)
      st.width st.bounds out)
    st.width st.height (fun y col => pixelBound T st col y) pool obs hobs
    (rowOk_computeRow T hT hk st hdvd) hw hpool
  refine ⟨g, ?_, hglen, fun idx h => hget idx h⟩
  simp only [computeSetWithEngine, hloop]

lemma computeSetWithEngineHP_spec (hp : HPRound) (pool : Option (List Nat))
    (obs : Option Bool) (st : ComputeSettings) (hobs : obsOk obs) (hw : 0 < st.width)
    (hpool : ∀ order, pool = some order → order.Perm (List.range st.height)) :
    ∃ g, computeSetWithEngineHP hp pool obs st =
        some (ComputedSet.new st.width st.height g, emitted obs (Estream st.height)) ∧
      g.length = st.width * st.height ∧
      ∀ idx, idx < st.width * st.height →
        g[idx]? = some (pixelBoundHP hp st (idx % st.width) (idx / st.width)) := by
  obtain ⟨g, hloop, hglen, hget⟩ := computeSetLoop_spec
    (fun y out => computeRowHP hp y (hpXStartOf hp st, hpYStartOf hp st)
      (hpStepOf hp st) st.width st.bounds out)
    st.width st.height (fun y col => pixelBoundHP hp st col y) pool obs hobs
    (rowOk_computeRowHP hp st) hw hpool
  refine ⟨g, ?_, hglen, fun idx h => hget idx h⟩
  simp only [computeSetWithEngineHP, hloop]

lemma primGo_succ (c : ℚ × ℚ) (fuel : Nat) (z : ℚ × ℚ) (iter : Nat) :
    primGo c (fuel + 1) z iter =
      if zNormSq (zNext c z) < 4 then primGo c fuel (zNext c z) (iter + 1)
      else Bound.Unbounded iter := rfl

lemma hpGo_succ (hp : HPRound) (c : ℚ × ℚ) (fuel : Nat) (z : ℚ × ℚ) (iter : Nat) :
    hpGo hp c (fuel + 1) z iter =
      if hp.rndR (zNormSq (hp.rnd2 ((hp.rnd2 (z.1 * z.1 - z.2 * z.2, 2 * z.1 * z.2)).1 + c.1,
          (hp.rnd2 (z.1 * z.1 - z.2 * z.2, 2 * z.1 * z.2)).2 + c.2))) < 4
      then hpGo hp c fuel (hp.rnd2 ((hp.rnd2 (z.1 * z.1 - z.2 * z.2, 2 * z.1 * z.2)).1 + c.1,
          (hp.rnd2 (z.1 * z.1 - z.2 * z.2, 2 * z.1 * z.2)).2 + c.2)) (iter + 1)
      else Bound.Unbounded iter := rfl

lemma simdGo_succ (n : Nat) (c : (Fin n → ℚ) × (Fin n → ℚ)) (fuel : Nat)
    (z : (Fin n → ℚ) × (Fin n → ℚ)) (iter : Fin n → Nat) :
    simdGo n c (fuel + 1) z iter =
      if ∀ i, decide (zNormSq (zNext (c.1 i, c.2 i) (z.1 i, z.2 i)) < 4) = false then iter
      else simdGo n c fuel
        (fun i => (zNext (c.1 i, c.2 i) (z.1 i, z.2 i)).1,
         fun i => (zNext (c.1 i, c.2 i) (z.1 i, z.2 i)).2)
        fun i => if decide (zNormSq (zNext (c.1 i, c.2 i) (z.1 i, z.2 i)) < 4) = true
          then iter i + 1 else iter i := rfl

lemma sq_abs_le (x y cx cy : ℚ) :
    ((x * x - y * y) * cx + 2 * x * y * cy) ^ 2
      ≤ (x * x + y * y) ^ 2 * (cx * cx + cy * cy) := by
  nlinarith [sq_nonneg ((x * x - y * y) * cy - 2 * x * y * cx)]

lemma keyIneq (N M : ℚ) (h4 : 4 ≤ N) (hMN : M ≤ N) (hM0 : 0 ≤ M) :
    4 * (N ^ 2 * M) ≤ (N ^ 2 + M - 4) ^ 2 := by
  have hN2 : 16 ≤ N ^ 2 := by nlinarith
  have hcube : 0 ≤ N ^ 3 + 2 * N ^ 2 + N - 4 := by nlinarith
  have hquad : 0 ≤ 2 * N ^ 2 - 2 * N + 8 := by nlinarith
  nlinarith [mul_nonneg (by linarith : (0 : ℚ) ≤ N - 4) hcube,
    mul_nonneg (by linarith : (0 : ℚ) ≤ N - M) hquad, sq_nonneg (N - M)]

lemma key1 (N M R : ℚ) (h4 : 4 ≤ N) (hMN : M ≤ N) (hM0 : 0 ≤ M)
    (hR : R ^ 2 ≤ N ^ 2 * M) : 4 ≤ N ^ 2 + 2 * R + M := by
  have hN2 : 16 ≤ N ^ 2 := by nlinarith
  have hg : 12 ≤ N ^ 2 + M - 4 := by linarith
  have hgg : 4 * R ^ 2 ≤ (N ^ 2 + M - 4) ^ 2 :=
    le_trans (by linarith) (keyIneq N M h4 hMN hM0)
  by_contra hc
  push_neg at hc
  have h1 : N ^ 2 + M - 4 < -(2 * R) := by linarith
  have h0 : 0 ≤ N ^ 2 + M - 4 := by linarith
  have h2 := mul_self_lt_mul_self h0 h1
  nlinarith [h2, hgg]

lemma key2 (N M R : ℚ) (h4 : 4 ≤ N) (hMN : M ≤ N) (hM0 : 0 ≤ M)
    (hR : R ^ 2 ≤ N ^ 2 * M) : 0 ≤ N ^ 2 + 2 * R := by
  have hN2 : 16 ≤ N ^ 2 := by nlinarith
  by_contra hc
  push_neg at hc
  have h1 : N ^ 2 < -(2 * R) := by linarith
  have h0 : (0 : ℚ) ≤ N ^ 2 := sq_nonneg N
  have h2 := mul_self_lt_mul_self h0 h1
  have h3 : N ^ 2 * M ≤ N ^ 2 * N := mul_le_mul_of_nonneg_left hMN h0
  have h4' : 4 * (N ^ 2 * N) ≤ N ^ 2 * N ^ 2 := by nlinarith
  nlinarith [h2, hR, h3, h4']

lemma escInv_step (c z : ℚ × ℚ) (h : escInv c z) : escInv c (zNext c z) := by
  obtain ⟨h4, hM⟩ := h
  have hM0 : 0 ≤ zNormSq c := by
    unfold zNormSq
    nlinarith [mul_self_nonneg c.1, mul_self_nonneg c.2]
  have hexp : zNormSq (zNext c z) = (zNormSq z) ^ 2
      + 2 * ((z.1 * z.1 - z.2 * z.2) * c.1 + 2 * z.1 * z.2 * c.2) + zNormSq c := by
    unfold zNormSq zNext
    ring
  have hcs : ((z.1 * z.1 - z.2 * z.2) * c.1 + 2 * z.1 * z.2 * c.2) ^ 2
      ≤ (zNormSq z) ^ 2 * zNormSq c := by
    unfold zNormSq
    exact sq_abs_le z.1 z.2 c.1 c.2
  constructor
  · rw [hexp]
    linarith [key1 (zNormSq z) (zNormSq c)
      ((z.1 * z.1 - z.2 * z.2) * c.1 + 2 * z.1 * z.2 * c.2) h4 hM hM0 hcs]
  · rw [hexp]
    linarith [key2 (zNormSq z) (zNormSq c)
      ((z.1 * z.1 - z.2 * z.2) * c.1 + 2 * z.1 * z.2 * c.2) h4 hM hM0 hcs]

lemma zNext_zero (c : ℚ × ℚ) : zNext c (0, 0) = c := by
  unfold zNext
  simp

lemma simdGo_lanes (n limit : Nat) (c : (Fin n → ℚ) × (Fin n → ℚ)) :
    ∀ (fuel : Nat) (z : (Fin n → ℚ) × (Fin n → ℚ)) (iter : Fin n → Nat)
      (A : Fin n → Bound),
      (∀ i, LaneOk limit fuel (c.1 i, c.2 i) (z.1 i, z.2 i) (iter i) (A i)) →
      ∀ i, (if simdGo n c fuel z iter i < limit
        then Bound.Unbounded (simdGo n c fuel z iter i) else Bound.Bounded) = A i := by
  intro fuel
  induction fuel with
  | zero =>
    intro z iter A hlane i
    rcases hlane i with ⟨hit, hprim, _⟩ | ⟨_, hlt, hA⟩
    · simp only [simdGo]
      rw [if_neg (by omega)]
      exact hprim
    · simp only [simdGo]
      rw [if_pos (by omega), hA]
  | succ fuel ih =>
    intro z iter A hlane i
    rw [simdGo_succ]
    by_cases hall : ∀ j, decide (zNormSq (zNext (c.1 j, c.2 j) (z.1 j, z.2 j)) < 4) = false
    · rw [if_pos hall]
      rcases hlane i with ⟨hit, hprim, _⟩ | ⟨_, hlt, hA⟩
      · have hmi : ¬ zNormSq (zNext (c.1 i, c.2 i) (z.1 i, z.2 i)) < 4 :=
          of_decide_eq_false (hall i)
        rw [primGo_succ, if_neg hmi] at hprim
        rw [if_pos (by omega), ← hprim]
      · rw [if_pos (by omega), hA]
    · rw [if_neg hall]
      apply ih
      intro j
      show LaneOk limit fuel (c.1 j, c.2 j) (zNext (c.1 j, c.2 j) (z.1 j, z.2 j))
        (if decide (zNormSq (zNext (c.1 j, c.2 j) (z.1 j, z.2 j)) < 4) = true
          then iter j + 1 else iter j) (A j)
      rcases hlane j with ⟨hit, hprim, hstart⟩ | ⟨hesc, hlt, hA⟩
      · by_cases hmj : zNormSq (zNext (c.1 j, c.2 j) (z.1 j, z.2 j)) < 4
        · rw [if_pos (decide_eq_true hmj)]
          left
          refine ⟨by omega, ?_, ?_⟩
          · rw [primGo_succ, if_pos hmj] at hprim
            exact hprim
          · rcases hstart with hc4 | hz0
            · exact Or.inl hc4
            · left
              have hz : zNext (c.1 j, c.2 j) (z.1 j, z.2 j) = (c.1 j, c.2 j) := by
                rw [hz0, zNext_zero]
              rw [hz] at hmj
              exact le_of_lt hmj
        · rw [if_neg (by simp [hmj])]
          right
          rw [primGo_succ, if_neg hmj] at hprim
          refine ⟨⟨not_lt.mp hmj, ?_⟩, by omega, hprim.symm⟩
          rcases hstart with hc4 | hz0
          · linarith [not_lt.mp hmj]
          · have hz : zNext (c.1 j, c.2 j) (z.1 j, z.2 j) = (c.1 j, c.2 j) := by
              rw [hz0, zNext_zero]
            rw [hz]
      · have hstep := escInv_step (c.1 j, c.2 j) (z.1 j, z.2 j) hesc
        have hge : ¬ zNormSq (zNext (c.1 j, c.2 j) (z.1 j, z.2 j)) < 4 :=
          not_lt.mpr hstep.1
        rw [if_neg (by simp [hge])]
        exact Or.inr ⟨hstep, hlt, hA⟩

lemma checkBoundedF64x4_lane (x y : List ℚ) (s : BoundsSettings) (i : Nat) (hi : i < 4) :
    (checkBoundedF64x4 x y s)[i]? =
      some (primGo (x.getD i 0, y.getD i 0) s.limit (0, 0) 0) := by
  have hmain := simdGo_lanes 4 s.limit (fun j => x.getD j 0, fun j => y.getD j 0) s.limit
    (fun _ => 0, fun _ => 0) (fun _ => 0)
    (fun j => primGo (x.getD j 0, y.getD j 0) s.limit (0, 0) 0)
    (fun j => Or.inl ⟨Nat.zero_add s.limit, rfl, Or.inr rfl⟩) ⟨i, hi⟩
  unfold checkBoundedF64x4
  rw [List.getElem?_ofFn]
  simp only [List.ofFnNthVal, hi, dite_true, dif_pos]
  exact congrArg some hmain

lemma rowSpec_f64x4_eq (coord : Nat → ℚ) (yy : ℚ) (s : BoundsSettings) (col : Nat) :
    rowSpec f64x4Backend coord yy s col = rowSpec f64Backend coord yy s col := by
  have h4 : f64x4Backend.mask.length = 4 := rfl
  have h1 : f64Backend.mask.length = 1 := rfl
  have hm4 : col % 4 < 4 := Nat.mod_lt col (by norm_num)
  simp only [rowSpec, h4, h1]
  rw [List.getD_eq_getElem?_getD]
  have hlane := checkBoundedF64x4_lane
    ((List.range 4).map fun i => coord (col / 4 * 4 + i)) (List.replicate 4 yy) s
    (col % 4) hm4
  rw [show f64x4Backend.check_bounded = checkBoundedF64x4 from rfl, hlane]
  have hx : ((List.range 4).map fun i => coord (col / 4 * 4 + i)).getD (col % 4) 0
      = coord (col / 4 * 4 + col % 4) := by
    rw [List.getD_eq_getElem?_getD, List.getElem?_map, List.getElem?_range hm4]
    rfl
  have hy : (List.replicate 4 yy).getD (col % 4) 0 = yy := by
    rw [List.getD_eq_getElem?_getD, List.getElem?_replicate_of_lt hm4]
    rfl
  have hcoord : col / 4 * 4 + col % 4 = col := by omega
  rw [hx, hy, hcoord]
  have hr : (List.range 1).map (fun i => coord (col / 1 * 1 + i)) = [coord col] := by
    simp [List.range_succ]
  rw [show f64Backend.check_bounded = checkBoundedPrim from rfl, hr]
  simp [checkBoundedPrim, Nat.mod_one]

lemma grid_ext (g1 g2 : List Bound) (L : Nat) (h1 : g1.length = L) (h2 : g2.length = L)
    (h : ∀ idx, idx < L → g1[idx]? = g2[idx]?) : g1 = g2 := by
  apply List.ext_getElem?
  intro idx
  by_cases hi : idx < L
  · exact h idx hi
  · rw [List.getElem?_eq_none (by omega), List.getElem?_eq_none (by omega)]

lemma primGo_range (c : ℚ × ℚ) : ∀ (fuel : Nat) (z : ℚ × ℚ) (iter : Nat),
    primGo c fuel z iter = Bound.Bounded ∨
    ∃ m, primGo c fuel z iter = Bound.Unbounded m ∧ iter ≤ m ∧ m < iter + fuel := by
  intro fuel
  induction fuel with
  | zero => intro z iter; exact Or.inl rfl
  | succ fuel ih =>
    intro z iter
    rw [primGo_succ]
    by_cases h : zNormSq (zNext c z) < 4
    · rw [if_pos h]
      rcases ih (zNext c z) (iter + 1) with h1 | ⟨m, h1, h2, h3⟩
      · exact Or.inl h1
      · exact Or.inr ⟨m, h1, by omega, by omega⟩
    · rw [if_neg h]
      exact Or.inr ⟨iter, rfl, le_refl _, by omega⟩

lemma hpGo_range (hp : HPRound) (c : ℚ × ℚ) : ∀ (fuel : Nat) (z : ℚ × ℚ) (iter : Nat),
    hpGo hp c fuel z iter = Bound.Bounded ∨
    ∃ m, hpGo hp c fuel z iter = Bound.Unbounded m ∧ iter ≤ m ∧ m < iter + fuel := by
  intro fuel
  induction fuel with
  | zero => intro z iter; exact Or.inl rfl
  | succ fuel ih =>
    intro z iter
    rw [hpGo_succ]
    split
    · rcases ih _ (iter + 1) with h1 | ⟨m, h1, h2, h3⟩
      · exact Or.inl h1
      · exact Or.inr ⟨m, h1, by omega, by omega⟩
    · exact Or.inr ⟨iter, rfl, le_refl _, by omega⟩

lemma checkBoundedPrim_zero (x y : List ℚ) (p : Nat) :
    checkBoundedPrim x y ⟨0, p⟩ = [Bound.Bounded] := rfl

lemma checkBoundedHP_zero (hp : HPRound) (x y : List ℚ) (p : Nat) :
    checkBoundedHP hp x y ⟨0, p⟩ = [Bound.Bounded] := rfl

lemma checkBoundedF64x4_zero (x y : List ℚ) (p : Nat) :
    checkBoundedF64x4 x y ⟨0, p⟩ = List.replicate 4 Bound.Bounded := by
  unfold checkBoundedF64x4
  rw [← List.ofFn_const 4 Bound.Bounded]
  congr 1

lemma checkBoundedF32x8_zero (toF32 : ℚ → ℚ) (x y : List ℚ) (p : Nat) :
    checkBoundedF32x8 toF32 x y ⟨0, p⟩ = List.replicate 8 Bound.Bounded := by
  unfold checkBoundedF32x8
  rw [← List.ofFn_const 8 Bound.Bounded]
  congr 1

lemma getD_all_bounded (l : List Bound) (n i : Nat) (h : l = List.replicate n Bound.Bounded) :
    l.getD i Bound.Bounded = Bound.Bounded := by
  subst h
  rw [List.getD_eq_getElem?_getD, List.getElem?_replicate]
  split <;> rfl

lemma spliceAt_isSome_length (out vals : List Bound) (x k : Nat) (h : x + k ≤ out.length) :
    ∃ out', spliceAt out x k vals = some out' ∧ out'.length = out.length := by
  refine ⟨_, by unfold spliceAt; rw [if_pos h], ?_⟩
  simp only [List.length_append, List.length_take, List.length_drop]
  omega

lemma computeRowGo_isSome (T : Backend) (coord : Nat → ℚ) (yy : ℚ) (s : BoundsSettings) :
    ∀ (xs : List Nat) (out : List Bound),
      (∀ x ∈ xs, x + T.mask.length ≤ out.length) →
      ∃ out', computeRowGo T coord yy s xs out = some out' ∧ out'.length = out.length := by
  intro xs
  induction xs with
  | nil => intro out _; exact ⟨out, rfl, rfl⟩
  | cons x rest ih =>
    intro out hmem
    obtain ⟨out', hsp, hlen⟩ := spliceAt_isSome_length out
      (T.check_bounded ((List.range T.mask.length).map fun i => coord (x + i))
        (List.replicate T.mask.length yy) s) x T.mask.length (hmem x (by simp))
    obtain ⟨r, hgo, hrlen⟩ := ih out' (fun x' hx' => by
      rw [hlen]
      exact hmem x' (by simp [hx']))
    refine ⟨r, ?_, by rw [hrlen, hlen]⟩
    simp only [computeRowGo, hsp, hgo]

lemma computeRowGo_append (T : Backend) (coord : Nat → ℚ) (yy : ℚ) (s : BoundsSettings) :
    ∀ (xs1 xs2 : List Nat) (out : List Bound),
      computeRowGo T coord yy s (xs1 ++ xs2) out =
        match computeRowGo T coord yy s xs1 out with
        | none => none
        | some out' => computeRowGo T coord yy s xs2 out' := by
  intro xs1
  induction xs1 with
  | nil => intro xs2 out; rfl
  | cons x rest ih =>
    intro xs2 out
    simp only [List.cons_append, computeRowGo]
    cases hsp : spliceAt out x T.mask.length
        (T.check_bounded ((List.range T.mask.length).map fun i => coord (x + i))
          (List.replicate T.mask.length yy) s) with
    | none => rfl
    | some out' => exact ih xs2 out'

lemma computeRow_not_dvd (y : Nat) (start : ℚ × ℚ) (step : ℚ) (width : Nat)
    (s : BoundsSettings) (out : List Bound) (hnd : ¬ 4 ∣ width) (hout : out.length = width) :
    computeRow f64x4Backend y start step width s out = none := by
  have h4 : f64x4Backend.mask.length = 4 := rfl
  have hmod : width % 4 ≠ 0 := fun h => hnd (Nat.dvd_of_mod_eq_zero h)
  have hcount : (width + 4 - 1) / 4 = width / 4 + 1 := by omega
  unfold computeRow
  rw [h4]
  unfold batchStarts
  rw [hcount, List.range'_concat, computeRowGo_append]
  have hbatches : ∀ x ∈ List.range' 0 (width / 4) 4, x + f64x4Backend.mask.length ≤ out.length := by
    intro x hx
    rw [List.mem_range'] at hx
    obtain ⟨i, hi, rfl⟩ := hx
    rw [h4, hout]
    omega
  obtain ⟨out', hgo, hlen⟩ := computeRowGo_isSome f64x4Backend
    (fun j => start.1 + step * (j : ℚ)) (start.2 + step * (y : ℚ)) s
    (List.range' 0 (width / 4) 4) out hbatches
  rw [hgo]
  have hfail : spliceAt out' (0 + 4 * (width / 4)) 4
      (f64x4Backend.check_bounded
        ((List.range 4).map fun i => start.1 + step * ((0 + 4 * (width / 4) + i : Nat) : ℚ))
        (List.replicate 4 (start.2 + step * (y : ℚ))) s) = none := by
    apply spliceAt_fail
    rw [hlen, hout]
    omega
  simp only [computeRowGo, h4, hfail]

lemma rowSpec_zero (T : Backend) (coord : Nat → ℚ) (yy : ℚ) (p : Nat)
    (hzero : ∀ x y, T.check_bounded x y ⟨0, p⟩ = List.replicate T.mask.length Bound.Bounded)
    (col : Nat) : rowSpec T coord yy ⟨0, p⟩ col = Bound.Bounded := by
  simp only [rowSpec]
  exact getD_all_bounded _ _ _ (hzero _ _)

lemma pool_none_perm (height : Nat) :
    ∀ o : List Nat, (none : Option (List Nat)) = some o → o.Perm (List.range height) :=
  fun _ ho => Option.noConfusion ho

lemma pool_some_perm (height : Nat) (order : List Nat)
    (hperm : order.Perm (List.range height)) :
    ∀ o : List Nat, (some order : Option (List Nat)) = some o →
      o.Perm (List.range height) := by
  intro o ho
  cases ho
  exact hperm

lemma computeSetWithEngine_par_eq_seq (T : Backend) (st : ComputeSettings)
    (order : List Nat) (hT : BackendOk T) (hk : 0 < T.mask.length)
    (hdvd : T.mask.length ∣ st.width) (hw : 0 < st.width)
    (hperm : order.Perm (List.range st.height)) :
    ∃ g E₁ E₂,
      computeSetWithEngine T none none st
        = some (ComputedSet.new st.width st.height g, E₁) ∧
      computeSetWithEngine T (some order) none st
        = some (ComputedSet.new st.width st.height g, E₂) := by
  obtain ⟨g1, h1, hlen1, hget1⟩ := computeSetWithEngine_spec T none none st hT hk hdvd
    (Or.inl rfl) hw (pool_none_perm st.height)
  obtain ⟨g2, h2, hlen2, hget2⟩ := computeSetWithEngine_spec T (some order) none st hT hk
    hdvd (Or.inl rfl) hw (pool_some_perm st.height order hperm)
  have hg : g1 = g2 := grid_ext g1 g2 _ hlen1 hlen2
    (fun idx hi => by rw [hget1 idx hi, hget2 idx hi])
  exact ⟨g1, _, _, h1, by rw [hg]; exact h2⟩

lemma computeSetWithEngineHP_par_eq_seq (hp : HPRound) (st : ComputeSettings)
    (order : List Nat) (hw : 0 < st.width)
    (hperm : order.Perm (List.range st.height)) :
    ∃ g E₁ E₂,
      computeSetWithEngineHP hp none none st
        = some (ComputedSet.new st.width st.height g, E₁) ∧
      computeSetWithEngineHP hp (some order) none st
        = some (ComputedSet.new st.width st.height g, E₂) := by
  obtain ⟨g1, h1, hlen1, hget1⟩ := computeSetWithEngineHP_spec hp none none st
    (Or.inl rfl) hw (pool_none_perm st.height)
  obtain ⟨g2, h2, hlen2, hget2⟩ := computeSetWithEngineHP_spec hp (some order) none st
    (Or.inl rfl) hw (pool_some_perm st.height order hperm)
  have hg : g1 = g2 := grid_ext g1 g2 _ hlen1 hlen2
    (fun idx hi => by rw [hget1 idx hi, hget2 idx hi])
  exact ⟨g1, _, _, h1, by rw [hg]; exact h2⟩

/-- C1: for valid settings (positive width and height, width a multiple of the
active backend's batch width), running `compute_set` sequentially (no thread
pool) and in parallel (with a thread pool, modelled by an arbitrary
completion order of the row tasks that is a permutation of the rows) produces
`ComputedSet` values with identical `Bound` contents element-wise: the very
same row-major data list `g`, regardless of the completion order. -/
theorem C1_seq_par_identical (toF32 : ℚ → ℚ) (hp : HPRound) (st : ComputeSettings)
    (order : List Nat) (hw : 0 < st.width) (hh : 0 < st.height)
    (hdvd : engineBatchWidth st.engine ∣ st.width)
    (hperm : order.Perm (List.range st.height)) :
    ∃ g E₁ E₂,
      computeSet toF32 hp none none st
        = some (ComputedSet.new st.width st.height g, E₁) ∧
      computeSet toF32 hp (some order) none st
        = some (ComputedSet.new st.width st.height g, E₂) := by
  cases hE : st.engine with
  | Single =>
    rw [hE] at hdvd
    simp only [computeSet, hE]
    exact computeSetWithEngine_par_eq_seq f32Backend st order f32Backend_ok (by decide)
      hdvd hw hperm
  | Double =>
    rw [hE] at hdvd
    simp only [computeSet, hE]
    exact computeSetWithEngine_par_eq_seq f64Backend st order f64Backend_ok (by decide)
      hdvd hw hperm
  | SimdF32x8 =>
    rw [hE] at hdvd
    simp only [computeSet, hE]
    exact computeSetWithEngine_par_eq_seq (f32x8Backend toF32) st order
      (f32x8Backend_ok toF32) (by simp [f32x8Backend]) hdvd hw hperm
  | SimdF64x4 =>
    rw [hE] at hdvd
    simp only [computeSet, hE]
    exact computeSetWithEngine_par_eq_seq f64x4Backend st order f64x4Backend_ok (by decide)
      hdvd hw hperm
  | Precision =>
    simp only [computeSet, hE]
    exact computeSetWithEngineHP_par_eq_seq hp st order hw hperm

theorem C1_seq_par_identical_witness :
    0 < 1 ∧ 0 < 2 ∧
      engineBatchWidth ComputeEngine.Double ∣ 1 ∧
      ([1, 0] : List Nat).Perm (List.range 2) ∧
    ∃ g E₁ E₂,
      computeSet id ⟨id, id, id⟩ none none
          { x := 0, y := 0, scale := 0, width := 1, height := 2,
            engine := ComputeEngine.Double, bounds := { limit := 0, precision := 0 } }
        = some (ComputedSet.new 1 2 g, E₁) ∧
      computeSet id ⟨id, id, id⟩ (some [1, 0]) none
          { x := 0, y := 0, scale := 0, width := 1, height := 2,
            engine := ComputeEngine.Double, bounds := { limit := 0, precision := 0 } }
        = some (ComputedSet.new 1 2 g, E₂) :=
  ⟨by decide, by decide, by decide, by decide,
    C1_seq_par_identical id ⟨id, id, id⟩
      { x := 0, y := 0, scale := 0, width := 1, height := 2,
        engine := ComputeEngine.Double, bounds := { limit := 0, precision := 0 } }
      [1, 0] (by decide) (by decide) (by decide) (by decide)⟩

/-- C2: for a row of width w with w a multiple of the f64x4 batch width 4,
computing the row via 4-wide batched `check_bounded` calls yields, for every
coordinate, the same `Bound` as the corresponding scalar f64 backend: the two
`compute_row` results are equal as lists.  The f64x4 loop includes the
all-lanes-escaped early break (`mask.none()` short-circuit), so the equality
also shows that the short-circuit does not change any lane's result. -/
theorem C2_simd_f64x4_eq_scalar (y : Nat) (start : ℚ × ℚ) (step : ℚ) (width : Nat)
    (s : BoundsSettings) (out : List Bound) (hdvd : 4 ∣ width)
    (hout : out.length = width) :
    computeRow f64x4Backend y start step width s out
      = computeRow f64Backend y start step width s out := by
  unfold computeRow
  rw [computeRowGo_full f64x4Backend f64x4Backend_ok (by decide) _ _ s width hdvd out hout,
    computeRowGo_full f64Backend f64Backend_ok (by decide) _ _ s width (one_dvd width)
      out hout]
  congr 1
  apply List.map_congr_left
  intro col _
  exact rowSpec_f64x4_eq _ _ s col

theorem C2_simd_f64x4_eq_scalar_witness :
    (4 ∣ 4) ∧ (List.replicate 4 Bound.Bounded).length = 4 ∧
    computeRow f64x4Backend 0 ((0 : ℚ), (0 : ℚ)) 1 4 ⟨1, 0⟩
        (List.replicate 4 Bound.Bounded)
      = computeRow f64Backend 0 ((0 : ℚ), (0 : ℚ)) 1 4 ⟨1, 0⟩
        (List.replicate 4 Bound.Bounded) :=
  ⟨by decide, by decide,
    C2_simd_f64x4_eq_scalar 0 (0, 0) 1 4 ⟨1, 0⟩ (List.replicate 4 Bound.Bounded)
      (by decide) (by decide)⟩

lemma computeSetWithEngine_zero (T : Backend) (pool : Option (List Nat)) (obs : Option Bool)
    (st : ComputeSettings) (hT : BackendOk T) (hk : 0 < T.mask.length)
    (hdvd : T.mask.length ∣ st.width) (hobs : obsOk obs) (hw : 0 < st.width)
    (hpool : ∀ order, pool = some order → order.Perm (List.range st.height))
    (hlim : st.bounds.limit = 0)
    (hzero : ∀ x y p, T.check_bounded x y ⟨0, p⟩
      = List.replicate T.mask.length Bound.Bounded) :
    ∃ E, computeSetWithEngine T pool obs st =
      some (ComputedSet.new st.width st.height
        (List.replicate (st.width * st.height) Bound.Bounded), E) := by
  have hbs : st.bounds = ⟨0, st.bounds.precision⟩ := by
    have h0 : st.bounds = ⟨st.bounds.limit, st.bounds.precision⟩ := rfl
    rw [h0, hlim]
  obtain ⟨g, h1, hlen, hget⟩ := computeSetWithEngine_spec T pool obs st hT hk hdvd hobs
    hw hpool
  have hB : g = List.replicate (st.width * st.height) Bound.Bounded := by
    apply grid_ext g _ (st.width * st.height) hlen (by simp)
    intro idx hi
    rw [hget idx hi, List.getElem?_replicate_of_lt hi]
    congr 1
    unfold pixelBound
    rw [hbs]
    exact rowSpec_zero T _ _ st.bounds.precision (fun x y => hzero x y _) _
  exact ⟨_, by rw [← hB]; exact h1⟩

lemma computeSetWithEngineHP_zero (hp : HPRound) (pool : Option (List Nat))
    (obs : Option Bool) (st : ComputeSettings) (hobs : obsOk obs) (hw : 0 < st.width)
    (hpool : ∀ order, pool = some order → order.Perm (List.range st.height))
    (hlim : st.bounds.limit = 0) :
    ∃ E, computeSetWithEngineHP hp pool obs st =
      some (ComputedSet.new st.width st.height
        (List.replicate (st.width * st.height) Bound.Bounded), E) := by
  have hbs : st.bounds = ⟨0, st.bounds.precision⟩ := by
    have h0 : st.bounds = ⟨st.bounds.limit, st.bounds.precision⟩ := rfl
    rw [h0, hlim]
  obtain ⟨g, h1, hlen, hget⟩ := computeSetWithEngineHP_spec hp pool obs st hobs hw hpool
  have hB : g = List.replicate (st.width * st.height) Bound.Bounded := by
    apply grid_ext g _ (st.width * st.height) hlen (by simp)
    intro idx hi
    rw [hget idx hi, List.getElem?_replicate_of_lt hi]
    congr 1
    unfold pixelBoundHP
    rw [hbs]
    exact rowSpec_zero (hpBackend hp) _ _ st.bounds.precision (fun x y => rfl) _
  exact ⟨_, by rw [← hB]; exact h1⟩

/-- C3: for every backend variant, `check_bounded` with an iteration limit of
0 returns `Bounded` for every input (the loop body never executes); hence for
any viewport, `compute_set` with limit 0 produces a grid that is `Bounded`
everywhere, in both execution modes. -/
theorem C3_limit_zero :
    (∀ x y p, checkBoundedPrim x y ⟨0, p⟩ = [Bound.Bounded])
    ∧ (∀ toF32 x y p, checkBoundedF32x8 toF32 x y ⟨0, p⟩
        = List.replicate 8 Bound.Bounded)
    ∧ (∀ x y p, checkBoundedF64x4 x y ⟨0, p⟩ = List.replicate 4 Bound.Bounded)
    ∧ (∀ hp x y p, checkBoundedHP hp x y ⟨0, p⟩ = [Bound.Bounded])
    ∧ ∀ (toF32 : ℚ → ℚ) (hp : HPRound) (pool : Option (List Nat)) (obs : Option Bool)
        (st : ComputeSettings),
        obsOk obs → 0 < st.width →
        engineBatchWidth st.engine ∣ st.width →
        (∀ order, pool = some order → order.Perm (List.range st.height)) →
        st.bounds.limit = 0 →
        ∃ E, computeSet toF32 hp pool obs st =
          some (ComputedSet.new st.width st.height
            (List.replicate (st.width * st.height) Bound.Bounded), E) := by
  refine ⟨checkBoundedPrim_zero, checkBoundedF32x8_zero, checkBoundedF64x4_zero,
    checkBoundedHP_zero, ?_⟩
  intro toF32 hp pool obs st hobs hw hdvd hpool hlim
  cases hE : st.engine with
  | Single =>
    rw [hE] at hdvd
    simp only [computeSet, hE]
    exact computeSetWithEngine_zero f32Backend pool obs st f32Backend_ok (by decide)
      hdvd hobs hw hpool hlim (fun x y p => checkBoundedPrim_zero x y p)
  | Double =>
    rw [hE] at hdvd
    simp only [computeSet, hE]
    exact computeSetWithEngine_zero f64Backend pool obs st f64Backend_ok (by decide)
      hdvd hobs hw hpool hlim (fun x y p => checkBoundedPrim_zero x y p)
  | SimdF32x8 =>
    rw [hE] at hdvd
    simp only [computeSet, hE]
    exact computeSetWithEngine_zero (f32x8Backend toF32) pool obs st
      (f32x8Backend_ok toF32) (by simp [f32x8Backend]) hdvd hobs hw hpool hlim
      (fun x y p => checkBoundedF32x8_zero toF32 x y p)
  | SimdF64x4 =>
    rw [hE] at hdvd
    simp only [computeSet, hE]
    exact computeSetWithEngine_zero f64x4Backend pool obs st f64x4Backend_ok (by decide)
      hdvd hobs hw hpool hlim (fun x y p => checkBoundedF64x4_zero x y p)
  | Precision =>
    simp only [computeSet, hE]
    exact computeSetWithEngineHP_zero hp pool obs st hobs hw hpool hlim

theorem C3_limit_zero_witness :
    obsOk (some true) ∧ 0 < 1 ∧
      engineBatchWidth ComputeEngine.SimdF64x4 ∣ 4 ∧
      (({ x := 0, y := 0, scale := 0, width := 4, height := 1,
          engine := ComputeEngine.SimdF64x4,
          bounds := { limit := 0, precision := 0 } } : ComputeSettings).bounds.limit = 0) ∧
    ∃ E, computeSet id ⟨id, id, id⟩ none (some true)
        { x := 0, y := 0, scale := 0, width := 4, height := 1,
          engine := ComputeEngine.SimdF64x4, bounds := { limit := 0, precision := 0 } }
      = some (ComputedSet.new 4 1 (List.replicate 4 Bound.Bounded), E) :=
  ⟨Or.inr rfl, by decide, by decide, rfl,
    C3_limit_zero.2.2.2.2 id ⟨id, id, id⟩ none (some true)
      { x := 0, y := 0, scale := 0, width := 4, height := 1,
        engine := ComputeEngine.SimdF64x4, bounds := { limit := 0, precision := 0 } }
      (Or.inr rfl) (by decide) (by decide) (pool_none_perm 1) rfl⟩

/-- C4 (code bug): the Single backend does NOT perform its iteration in
32-bit arithmetic.  The macro `impl_boundscheck_primitive` never uses its
`$type` parameter: the generated `f32` impl reads the f64 inputs directly
and iterates on them, so its `check_bounded` is the very same function as
the Double backend's, and `compute_set` behaves identically under the
`Single` and `Double` selectors for every settings value. -/
theorem C4_single_equals_double :
    (∀ x y s, f32Backend.check_bounded x y s = f64Backend.check_bounded x y s)
    ∧ ∀ (toF32 : ℚ → ℚ) (hp : HPRound) (pool : Option (List Nat)) (obs : Option Bool)
        (st : ComputeSettings),
        computeSet toF32 hp pool obs { st with engine := ComputeEngine.Single }
          = computeSet toF32 hp pool obs { st with engine := ComputeEngine.Double } :=
  ⟨fun _ _ _ => rfl, fun _ _ _ _ _ => rfl⟩

/-- C5 (counterexample): with two rows and parallel completion order
`[1, 0]` (row 1 finishes first), the source emits `Progress 0` first and
`Progress 1` second — the drain-loop counter `n`, not the just-completed
row index.  The claimed event sequence for this completion order
(`Progress 1` then `Progress 0`) differs from the actual one. -/
theorem C5_counterexample :
    computeSetWithEngine f64Backend (some [1, 0]) (some true)
        { x := 0, y := 0, scale := 0, width := 1, height := 2,
          engine := ComputeEngine.Double, bounds := { limit := 0, precision := 0 } }
      = some (ComputedSet.new 1 2 [Bound.Bounded, Bound.Bounded],
          [ComputeEvent.Start, ComputeEvent.Progress 0 2, ComputeEvent.Progress 1 2,
            ComputeEvent.End])
    ∧ ([ComputeEvent.Start, ComputeEvent.Progress 1 2, ComputeEvent.Progress 0 2,
          ComputeEvent.End] : List ComputeEvent)
        ≠ [ComputeEvent.Start, ComputeEvent.Progress 0 2, ComputeEvent.Progress 1 2,
          ComputeEvent.End] := by
  constructor
  · decide
  · decide

/-- C5 (amended): in parallel mode the row-index argument of each
`Progress` event is the drain-loop counter (the number of rows drained so
far), not the index of the row that just completed; hence the emitted
progress indices are always `0, 1, ..., height-1` in strictly increasing
order, for every completion order of the row tasks. -/
theorem C5_amended (T : Backend) (st : ComputeSettings) (order : List Nat)
    (hT : BackendOk T) (hk : 0 < T.mask.length) (hdvd : T.mask.length ∣ st.width)
    (hw : 0 < st.width) (hperm : order.Perm (List.range st.height)) :
    ∃ cs, computeSetWithEngine T (some order) (some true) st
      = some (cs, [ComputeEvent.Start]
          ++ ((List.range st.height).map fun n => ComputeEvent.Progress n st.height)
          ++ [ComputeEvent.End]) := by
  obtain ⟨g, h1, _, _⟩ := computeSetWithEngine_spec T (some order) (some true) st hT hk
    hdvd (Or.inr rfl) hw (pool_some_perm st.height order hperm)
  exact ⟨_, h1⟩

theorem C5_amended_witness :
    BackendOk f64Backend ∧ 0 < f64Backend.mask.length ∧ f64Backend.mask.length ∣ 1 ∧
      (0 : Nat) < 1 ∧ ([1, 0] : List Nat).Perm (List.range 2) ∧
    ∃ cs, computeSetWithEngine f64Backend (some [1, 0]) (some true)
        { x := 0, y := 0, scale := 0, width := 1, height := 2,
          engine := ComputeEngine.Double, bounds := { limit := 0, precision := 0 } }
      = some (cs, [ComputeEvent.Start]
          ++ ((List.range 2).map fun n => ComputeEvent.Progress n 2)
          ++ [ComputeEvent.End]) :=
  ⟨f64Backend_ok, by decide, by decide, by decide, by decide,
    C5_amended f64Backend
      { x := 0, y := 0, scale := 0, width := 1, height := 2,
        engine := ComputeEngine.Double, bounds := { limit := 0, precision := 0 } }
      [1, 0] f64Backend_ok (by decide) (by decide) (by decide) (by decide)⟩

/-- C6 (counterexample): with an observer supplied whose receiver has
disconnected, the computation does not complete and return a full
`ComputedSet`; the very first `sender.send(Start).unwrap()` panics and the
whole computation aborts (`none`). -/
theorem C6_counterexample :
    computeSetWithEngine f64Backend none (some false)
        { x := 0, y := 0, scale := 0, width := 1, height := 1,
          engine := ComputeEngine.Double, bounds := { limit := 0, precision := 0 } }
      = none := by
  decide

/-- C6 (amended): sends on the progress-event channel are unwrapped, not
fire-and-forget: whenever the progress observer has disconnected, the
computation panics at the first failed send instead of completing, in both
the generic and the arbitrary-precision engine, for every settings value
and either execution mode.  A failure on either channel is fatal. -/
theorem C6_amended :
    (∀ (T : Backend) (pool : Option (List Nat)) (st : ComputeSettings),
      computeSetWithEngine T pool (some false) st = none)
    ∧ ∀ (hp : HPRound) (pool : Option (List Nat)) (st : ComputeSettings),
      computeSetWithEngineHP hp pool (some false) st = none := by
  constructor
  · intro T pool st
    simp [computeSetWithEngine, computeSetLoop, sendEvent]
  · intro hp pool st
    simp [computeSetWithEngineHP, computeSetLoop, sendEvent]

/-- C7: for every successful computation with a connected observer, the event
stream is exactly one `Start`, then exactly `height` `Progress` events whose
row indices form a permutation of `0..height`, then exactly one `End`, with
`Start` strictly before every `Progress` and `End` strictly after, in both
execution modes and for every completion order. -/
theorem C7_event_stream (toF32 : ℚ → ℚ) (hp : HPRound) (pool : Option (List Nat))
    (st : ComputeSettings) (hw : 0 < st.width)
    (hdvd : engineBatchWidth st.engine ∣ st.width)
    (hpool : ∀ order, pool = some order → order.Perm (List.range st.height)) :
    ∃ (cs : ComputedSet) (ps : List Nat), computeSet toF32 hp pool (some true) st
        = some (cs, [ComputeEvent.Start]
            ++ (ps.map fun i => ComputeEvent.Progress i st.height)
            ++ [ComputeEvent.End])
      ∧ ps.Perm (List.range st.height) := by
  cases hE : st.engine with
  | Single =>
    rw [hE] at hdvd
    simp only [computeSet, hE]
    obtain ⟨g, h1, _, _⟩ := computeSetWithEngine_spec f32Backend pool (some true) st
      f32Backend_ok (by decide) hdvd (Or.inr rfl) hw hpool
    exact ⟨_, List.range st.height, h1, List.Perm.refl _⟩
  | Double =>
    rw [hE] at hdvd
    simp only [computeSet, hE]
    obtain ⟨g, h1, _, _⟩ := computeSetWithEngine_spec f64Backend pool (some true) st
      f64Backend_ok (by decide) hdvd (Or.inr rfl) hw hpool
    exact ⟨_, List.range st.height, h1, List.Perm.refl _⟩
  | SimdF32x8 =>
    rw [hE] at hdvd
    simp only [computeSet, hE]
    obtain ⟨g, h1, _, _⟩ := computeSetWithEngine_spec (f32x8Backend toF32) pool (some true)
      st (f32x8Backend_ok toF32) (by simp [f32x8Backend]) hdvd (Or.inr rfl) hw hpool
    exact ⟨_, List.range st.height, h1, List.Perm.refl _⟩
  | SimdF64x4 =>
    rw [hE] at hdvd
    simp only [computeSet, hE]
    obtain ⟨g, h1, _, _⟩ := computeSetWithEngine_spec f64x4Backend pool (some true) st
      f64x4Backend_ok (by decide) hdvd (Or.inr rfl) hw hpool
    exact ⟨_, List.range st.height, h1, List.Perm.refl _⟩
  | Precision =>
    simp only [computeSet, hE]
    obtain ⟨g, h1, _, _⟩ := computeSetWithEngineHP_spec hp pool (some true) st
      (Or.inr rfl) hw hpool
    exact ⟨_, List.range st.height, h1, List.Perm.refl _⟩

theorem C7_event_stream_witness :
    0 < 1 ∧ engineBatchWidth ComputeEngine.Double ∣ 1 ∧
    ∃ (cs : ComputedSet) (ps : List Nat),
      computeSet id ⟨id, id, id⟩ (some [1, 0]) (some true)
        { x := 0, y := 0, scale := 0, width := 1, height := 2,
          engine := ComputeEngine.Double, bounds := { limit := 0, precision := 0 } }
        = some (cs, [ComputeEvent.Start]
            ++ (ps.map fun i => ComputeEvent.Progress i 2)
            ++ [ComputeEvent.End])
      ∧ ps.Perm (List.range 2) :=
  ⟨by decide, by decide,
    C7_event_stream id ⟨id, id, id⟩ (some [1, 0])
      { x := 0, y := 0, scale := 0, width := 1, height := 2,
        engine := ComputeEngine.Double, bounds := { limit := 0, precision := 0 } }
      (by decide) (by decide) (pool_some_perm 2 [1, 0] (by decide))⟩

lemma rowmajor_arith (w h row col : Nat) (hw : 0 < w) (hr : row < h) (hc : col < w) :
    row * w + col < w * h ∧ (row * w + col) / w = row ∧ (row * w + col) % w = col := by
  have hb := rowBound_mul w h row hr
  have hsm : (row + 1) * w = row * w + w := by ring
  have hdiv : (row * w + col) / w = row := Nat.div_eq_of_lt_le (by omega) (by omega)
  have hda := Nat.div_add_mod (row * w + col) w
  rw [hdiv] at hda
  have hcm : w * row = row * w := Nat.mul_comm w row
  exact ⟨by omega, hdiv, by omega⟩

/-- C8: for every valid settings, `compute_set` returns a `ComputedSet` whose
data is present (not the empty state), of length exactly width*height, laid
out row-major: element `row*width + col` is the Bound the active backend
computes for pixel (col, row); in both sequential and parallel modes. -/
theorem C8_row_major (toF32 : ℚ → ℚ) (hp : HPRound) (pool : Option (List Nat))
    (obs : Option Bool) (st : ComputeSettings) (hobs : obsOk obs) (hw : 0 < st.width)
    (hh : 0 < st.height) (hdvd : engineBatchWidth st.engine ∣ st.width)
    (hpool : ∀ order, pool = some order → order.Perm (List.range st.height)) :
    ∃ (g : List Bound) (E : List ComputeEvent),
      computeSet toF32 hp pool obs st = some (ComputedSet.new st.width st.height g, E)
      ∧ (ComputedSet.new st.width st.height g).data = some g
      ∧ g.length = st.width * st.height
      ∧ ∀ row col, row < st.height → col < st.width →
          g[row * st.width + col]? = some (enginePixel toF32 hp st col row) := by
  cases hE : st.engine with
  | Single =>
    rw [hE] at hdvd
    simp only [computeSet, hE]
    obtain ⟨g, h1, hlen, hget⟩ := computeSetWithEngine_spec f32Backend pool obs st
      f32Backend_ok (by decide) hdvd hobs hw hpool
    refine ⟨g, _, h1, rfl, hlen, fun row col hr hc => ?_⟩
    obtain ⟨hi, hdiv, hmod⟩ := rowmajor_arith st.width st.height row col hw hr hc
    rw [hget _ hi, hdiv, hmod]
    simp only [enginePixel, hE]
  | Double =>
    rw [hE] at hdvd
    simp only [computeSet, hE]
    obtain ⟨g, h1, hlen, hget⟩ := computeSetWithEngine_spec f64Backend pool obs st
      f64Backend_ok (by decide) hdvd hobs hw hpool
    refine ⟨g, _, h1, rfl, hlen, fun row col hr hc => ?_⟩
    obtain ⟨hi, hdiv, hmod⟩ := rowmajor_arith st.width st.height row col hw hr hc
    rw [hget _ hi, hdiv, hmod]
    simp only [enginePixel, hE]
  | SimdF32x8 =>
    rw [hE] at hdvd
    simp only [computeSet, hE]
    obtain ⟨g, h1, hlen, hget⟩ := computeSetWithEngine_spec (f32x8Backend toF32) pool obs
      st (f32x8Backend_ok toF32) (by simp [f32x8Backend]) hdvd hobs hw hpool
    refine ⟨g, _, h1, rfl, hlen, fun row col hr hc => ?_⟩
    obtain ⟨hi, hdiv, hmod⟩ := rowmajor_arith st.width st.height row col hw hr hc
    rw [hget _ hi, hdiv, hmod]
    simp only [enginePixel, hE]
  | SimdF64x4 =>
    rw [hE] at hdvd
    simp only [computeSet, hE]
    obtain ⟨g, h1, hlen, hget⟩ := computeSetWithEngine_spec f64x4Backend pool obs st
      f64x4Backend_ok (by decide) hdvd hobs hw hpool
    refine ⟨g, _, h1, rfl, hlen, fun row col hr hc => ?_⟩
    obtain ⟨hi, hdiv, hmod⟩ := rowmajor_arith st.width st.height row col hw hr hc
    rw [hget _ hi, hdiv, hmod]
    simp only [enginePixel, hE]
  | Precision =>
    simp only [computeSet, hE]
    obtain ⟨g, h1, hlen, hget⟩ := computeSetWithEngineHP_spec hp pool obs st hobs hw hpool
    refine ⟨g, _, h1, rfl, hlen, fun row col hr hc => ?_⟩
    obtain ⟨hi, hdiv, hmod⟩ := rowmajor_arith st.width st.height row col hw hr hc
    rw [hget _ hi, hdiv, hmod]
    simp only [enginePixel, hE]

theorem C8_row_major_witness :
    obsOk none ∧ 0 < 1 ∧ 0 < 2 ∧ engineBatchWidth ComputeEngine.Double ∣ 1 ∧
    ∃ (g : List Bound) (E : List ComputeEvent),
      computeSet id ⟨id, id, id⟩ none none
          { x := 0, y := 0, scale := 0, width := 1, height := 2,
            engine := ComputeEngine.Double, bounds := { limit := 0, precision := 0 } }
        = some (ComputedSet.new 1 2 g, E)
      ∧ (ComputedSet.new 1 2 g).data = some g
      ∧ g.length = 1 * 2
      ∧ ∀ row col, row < 2 → col < 1 →
          g[row * 1 + col]? = some (enginePixel id ⟨id, id, id⟩
            { x := 0, y := 0, scale := 0, width := 1, height := 2,
              engine := ComputeEngine.Double, bounds := { limit := 0, precision := 0 } }
            col row) :=
  ⟨Or.inl rfl, by decide, by decide, by decide,
    C8_row_major id ⟨id, id, id⟩ none none
      { x := 0, y := 0, scale := 0, width := 1, height := 2,
        engine := ComputeEngine.Double, bounds := { limit := 0, precision := 0 } }
      (Or.inl rfl) (by decide) (by decide) (by decide) (pool_none_perm 2)⟩

/-- C9: every `Bound` value a backend's `check_bounded` produces is either
`Bounded` or `Unbounded(n)` with `n < limit`; no backend ever produces
`Unbounded(n)` with `n ≥ limit`.  Stated for each of the four checker
implementations, at every output position (out-of-range positions read the
default `Bounded`). -/
theorem C9_bound_range :
    (∀ x y s i, (checkBoundedPrim x y s).getD i Bound.Bounded = Bound.Bounded
      ∨ ∃ n, n < s.limit
        ∧ (checkBoundedPrim x y s).getD i Bound.Bounded = Bound.Unbounded n)
    ∧ (∀ toF32 x y s i,
        (checkBoundedF32x8 toF32 x y s).getD i Bound.Bounded = Bound.Bounded
      ∨ ∃ n, n < s.limit
        ∧ (checkBoundedF32x8 toF32 x y s).getD i Bound.Bounded = Bound.Unbounded n)
    ∧ (∀ x y s i, (checkBoundedF64x4 x y s).getD i Bound.Bounded = Bound.Bounded
      ∨ ∃ n, n < s.limit
        ∧ (checkBoundedF64x4 x y s).getD i Bound.Bounded = Bound.Unbounded n)
    ∧ (∀ hp x y s i, (checkBoundedHP hp x y s).getD i Bound.Bounded = Bound.Bounded
      ∨ ∃ n, n < s.limit
        ∧ (checkBoundedHP hp x y s).getD i Bound.Bounded = Bound.Unbounded n) := by
  refine ⟨?_, ?_, ?_, ?_⟩
  · intro x y s i
    match i with
    | 0 =>
      rcases primGo_range (x.headI, y.headI) s.limit (0, 0) 0 with h | ⟨m, h, _, hm⟩
      · left
        simpa [checkBoundedPrim] using h
      · right
        exact ⟨m, by omega, by simpa [checkBoundedPrim] using h⟩
    | i + 1 => left; rfl
  · intro toF32 x y s i
    unfold checkBoundedF32x8
    rw [List.getD_eq_getElem?_getD, List.getElem?_ofFn]
    by_cases hi : i < 8
    · simp only [List.ofFnNthVal, hi, dif_pos, Option.getD_some]
      split
      · right
        exact ⟨_, by assumption, rfl⟩
      · left; rfl
    · simp only [List.ofFnNthVal, hi, dif_neg]
      left; rfl
  · intro x y s i
    unfold checkBoundedF64x4
    rw [List.getD_eq_getElem?_getD, List.getElem?_ofFn]
    by_cases hi : i < 4
    · simp only [List.ofFnNthVal, hi, dif_pos, Option.getD_some]
      split
      · right
        exact ⟨_, by assumption, rfl⟩
      · left; rfl
    · simp only [List.ofFnNthVal, hi, dif_neg]
      left; rfl
  · intro hp x y s i
    match i with
    | 0 =>
      rcases hpGo_range hp (hp.rnd2 (x.headI, y.headI)) s.limit (hp.rnd2 (0, 0)) 0
        with h | ⟨m, h, _, hm⟩
      · left
        simpa [checkBoundedHP] using h
      · right
        exact ⟨m, by omega, by simpa [checkBoundedHP] using h⟩
    | i + 1 => left; rfl

/-- C10: when width is a positive multiple of the active backend's batch
width k, every batch slice `out[x..x+k]` taken in `compute_row` is within
the row buffer (the row computation never hits the out-of-range slicing
panic); when width is not a multiple of k for the f64x4 vector backend, the
guarantee fails: the final full-width batch slices past the end of the
buffer and the row computation panics, since there is no padding guard. -/
theorem C10_batch_bounds :
    (∀ (T : Backend) (y : Nat) (start : ℚ × ℚ) (step : ℚ) (width : Nat)
        (s : BoundsSettings) (out : List Bound),
        0 < T.mask.length → T.mask.length ∣ width → 0 < width →
        out.length = width →
        (computeRow T y start step width s out).isSome = true)
    ∧ ∀ (y : Nat) (start : ℚ × ℚ) (step : ℚ) (width : Nat) (s : BoundsSettings)
        (out : List Bound), ¬ (4 ∣ width) → out.length = width →
        computeRow f64x4Backend y start step width s out = none := by
  constructor
  · intro T y start step width s out hk hdvd hw hout
    unfold computeRow
    have hb : ∀ x ∈ batchStarts width T.mask.length,
        x + T.mask.length ≤ out.length := by
      intro x hx
      rw [batchStarts_dvd width T.mask.length hk hdvd, List.mem_range'] at hx
      obtain ⟨i, hi, rfl⟩ := hx
      rw [hout]
      have h1 : T.mask.length * (i + 1) ≤ T.mask.length * (width / T.mask.length) :=
        Nat.mul_le_mul_left _ (by omega)
      have h2 : T.mask.length * (width / T.mask.length) = width :=
        Nat.mul_div_cancel' hdvd
      have h3 : T.mask.length * (i + 1) = T.mask.length * i + T.mask.length := by ring
      omega
    obtain ⟨r, hgo, _⟩ := computeRowGo_isSome T (fun j => start.1 + step * (j : ℚ))
      (start.2 + step * (y : ℚ)) s (batchStarts width T.mask.length) out hb
    rw [hgo]
    rfl
  · intro y start step width s out hnd hout
    exact computeRow_not_dvd y start step width s out hnd hout

theorem C10_batch_bounds_witness :
    (0 < f64Backend.mask.length ∧ f64Backend.mask.length ∣ 1 ∧ (0 : Nat) < 1 ∧
      ([Bound.Bounded] : List Bound).length = 1 ∧
      (computeRow f64Backend 0 ((0 : ℚ), (0 : ℚ)) 0 1 ⟨0, 0⟩ [Bound.Bounded]).isSome
        = true)
    ∧ (¬ (4 ∣ 5) ∧ (List.replicate 5 Bound.Bounded).length = 5 ∧
      computeRow f64x4Backend 0 ((0 : ℚ), (0 : ℚ)) 0 5 ⟨0, 0⟩
        (List.replicate 5 Bound.Bounded) = none) :=
  ⟨⟨by decide, by decide, by decide, by decide,
      C10_batch_bounds.1 f64Backend 0 (0, 0) 0 1 ⟨0, 0⟩ [Bound.Bounded] (by decide)
        (by decide) (by decide) (by decide)⟩,
    ⟨by decide, by decide,
      C10_batch_bounds.2 0 (0, 0) 0 5 ⟨0, 0⟩ (List.replicate 5 Bound.Bounded) (by decide)
        (by decide)⟩⟩
